import Mathlib

/-!
Shallow embedding of the `callagain` scheduler (`src/src/index.ts`).

The scheduler wraps functions so that invocations go through a per-call
state machine (`init → waiting → processing → {waiting, done}`), a single
cycle timer, two limit calculators (concurrency and interval rate) and a
retry/error-classification chain.  Machine state is modelled explicitly,
with natural-number clock `now`; asynchronous target completions are
nondeterministic steps of a transition relation.  Result and error values
are opaque to the scheduler and are modelled as natural numbers.
-/

namespace Callagain

/-- Configuration options accepted by the `CallAgain` constructor
(`CallAgainOptions`, lines 3-9 of `index.ts`); every field is optional. -/
structure CallAgainOptions where
  maxConcurrentCalls : Option Nat
  maxRetryAttempts : Option Nat
  delayOnRetry : Option Nat
  maxCallsPerInterval : Option Nat
  intervalLength : Option Nat
deriving DecidableEq

/-- Resolved configuration held by a `CallAgain` instance (fields of the
class, lines 43-47). -/
structure Config where
  maxConcurrentCalls : Option Nat
  maxRetryAttempts : Nat
  delayOnRetry : Nat
  maxCallsPerInterval : Option Nat
  intervalLength : Option Nat
deriving DecidableEq

/-- JavaScript `x || d` for an optional number: both `undefined` and the
falsy number `0` fall back to the default. -/
def jsOrDefault (x : Option Nat) (d : Nat) : Nat :=
  match x with
  | none => d
  | some v => if v = 0 then d else v

/-- The constructor (lines 58-63): `options && options.f` keeps the optional
fields as they are, `options && options.f || default` applies the defaults
10 and 1000. -/
def mkConfig (options : Option CallAgainOptions) : Config where
  maxConcurrentCalls := options.bind (·.maxConcurrentCalls)
  maxRetryAttempts := jsOrDefault (options.bind (·.maxRetryAttempts)) 10
  delayOnRetry := jsOrDefault (options.bind (·.delayOnRetry)) 1000
  maxCallsPerInterval := options.bind (·.maxCallsPerInterval)
  intervalLength := options.bind (·.intervalLength)

/-- `ErrorHandler = (err, next) => boolean` (line 12); error values are
opaque and modelled as naturals. -/
abbrev ErrorHandler := Nat → (Nat → Bool) → Bool

/-- The default error handler pushed by the constructor (line 73):
`() => true`. -/
def defaultErrorHandler : ErrorHandler := fun _ _ => true

/-- The `getHandler` closure of `_shouldRetryOnError` (lines 263-271): the
handler at position `i` is called with a `next` that evaluates the rest of
the chain.  (Past the end of the list the JS code would invoke `undefined`;
that case is unreachable because the terminal default never calls `next`.) -/
def getHandler : List ErrorHandler → Nat → Bool
  | [], _ => false
  | h :: rest, err => h err (fun e => getHandler rest e)

/-- `CallEntryStatus` (lines 18-20). -/
inductive CallEntryStatus
  | init | waiting | processing | done
deriving DecidableEq

/-- One call entry (lines 22-35).  The `resolve`/`reject` callbacks are
modelled by the single flag `hasSettlement`; `aborted` supports the reset
operation of §5 of the spec (absent from `src/src/index.ts`). -/
structure CallEntry where
  id : Nat
  hasSettlement : Bool
  status : CallEntryStatus
  attempts : Nat
  delay : Nat
  aborted : Bool
deriving DecidableEq

/-- A history record (lines 37-40), one per dispatch. -/
structure CallHistory where
  entryId : Nat
  timestamp : Nat
deriving DecidableEq

/-- A settlement of a caller-visible deferred result: `resolved v`, or
`rejected e` where `rejected none` models rejecting with `undefined`. -/
inductive SettleOutcome
  | resolved (v : Nat)
  | rejected (e : Option Nat)
deriving DecidableEq

/-- The mutable state of a `CallAgain` instance, together with the log
`settled` of settlements performed so far and the current clock `now`. -/
structure SchedulerState where
  entries : List CallEntry
  history : List CallHistory
  settled : List (Nat × SettleOutcome)
  errorHandlers : List ErrorHandler
  lastId : Nat
  cycleTimer : Option Nat
  now : Nat

/-- State of a freshly constructed instance (lines 65-73). -/
def initialState : SchedulerState where
  entries := []
  history := []
  settled := []
  errorHandlers := [defaultErrorHandler]
  lastId := 0
  cycleTimer := none
  now := 0

/-- `this._entries.count({status: st})`. -/
def statusCount (s : SchedulerState) (st : CallEntryStatus) : Nat :=
  s.entries.countP (fun e => decide (e.status = st))

/-- `_calculateCallsLeftBeforeConcurrentLimit` (lines 150-163); the clamping
of a negative `callsLeft` to 0 is the truncation of `Nat` subtraction. -/
def calculateCallsLeftBeforeConcurrentLimit (cfg : Config) (s : SchedulerState) : Option Nat :=
  match cfg.maxConcurrentCalls with
  | none => none
  | some m => some (m - statusCount s CallEntryStatus.processing)

/-- `_calculateCallsLeftBeforeIntervalLimit` (lines 165-181): `undefined`
when either option is missing, otherwise the limit minus the count of
history records with `timestamp ≥ now − intervalLength` (clamped at 0). -/
def calculateCallsLeftBeforeIntervalLimit (cfg : Config) (s : SchedulerState) : Option Nat :=
  match cfg.maxCallsPerInterval, cfg.intervalLength with
  | some m, some len =>
      some (m - s.history.countP (fun r => decide (s.now - len ≤ r.timestamp)))
  | _, _ => none

/-- Loki `simplesort('id')` comparison. -/
def leById (a b : CallEntry) : Prop := a.id ≤ b.id

instance : DecidableRel leById := fun a b => Nat.decLe a.id b.id

instance : IsTotal CallEntry leById := ⟨fun a b => Nat.le_total a.id b.id⟩

instance : IsTrans CallEntry leById := ⟨fun _ _ _ => Nat.le_trans⟩

/-- Loki `simplesort('delay')` comparison. -/
def leByDelay (a b : CallEntry) : Prop := a.delay ≤ b.delay

instance : DecidableRel leByDelay := fun a b => Nat.decLe a.delay b.delay

instance : IsTotal CallEntry leByDelay := ⟨fun a b => Nat.le_total a.delay b.delay⟩

instance : IsTrans CallEntry leByDelay := ⟨fun _ _ _ => Nat.le_trans⟩

/-- The `waiting` entry closest by `delay` (lines 134-138): sort the
`waiting` entries by `delay` and take the first. -/
def closestByDelay (s : SchedulerState) : Option CallEntry :=
  (List.insertionSort leByDelay
    (s.entries.filter (fun e => decide (e.status = CallEntryStatus.waiting)))).head?

/-- `_calculateNextCycleDelay` (lines 111-148), `none` meaning `undefined`
(no wake-up).  The final subtraction is carried out on `Int` and clamped at
0 exactly as in lines 140-145. -/
def calculateNextCycleDelay (cfg : Config) (s : SchedulerState) : Option Nat :=
  if statusCount s CallEntryStatus.init = 0 ∧ statusCount s CallEntryStatus.waiting = 0 then
    none
  else if statusCount s CallEntryStatus.waiting = 0 then
    some 1
  else if calculateCallsLeftBeforeIntervalLimit cfg s = some 0 then
    cfg.intervalLength
  else if calculateCallsLeftBeforeConcurrentLimit cfg s = some 0 then
    none
  else if 0 < s.entries.countP
      (fun e => decide (e.status = CallEntryStatus.waiting ∧ e.delay ≤ s.now)) then
    some 0
  else
    match closestByDelay s with
    | none => none
    | some c =>
      let d : Int := (c.delay : Int) - (s.now : Int)
      if d < 0 then some 0 else some d.toNat

/-- `_planNextCycle` (lines 102-109): arm the single timer unless it is
already armed and there is something to wait for. -/
def planNextCycle (cfg : Config) (s : SchedulerState) : SchedulerState :=
  if s.cycleTimer.isSome then s
  else
    match calculateNextCycleDelay cfg s with
    | none => s
    | some t => { s with cycleTimer := some (s.now + t) }

/-- The `waiting` entries with `delay < now` (the `find` of lines 200-204;
note the strict `$lt`). -/
def eligibleEntries (s : SchedulerState) : List CallEntry :=
  s.entries.filter (fun e => decide (e.status = CallEntryStatus.waiting ∧ e.delay < s.now))

/-- The batch selected by `_onCycleTimerTick` (lines 191-208): `min` of the
two headrooms, an `undefined` headroom replaced by the waiting count, then
filter eligible, sort by `id`, limit to the batch size. -/
def dispatchBatch (cfg : Config) (s : SchedulerState) : List CallEntry :=
  let waitingEntriesCount := statusCount s CallEntryStatus.waiting
  let concLeft := (calculateCallsLeftBeforeConcurrentLimit cfg s).getD waitingEntriesCount
  let intLeft := (calculateCallsLeftBeforeIntervalLimit cfg s).getD waitingEntriesCount
  (List.insertionSort leById (eligibleEntries s)).take (min concLeft intLeft)

/-- The synchronous part of `_processEntry` (lines 227-232) applied to each
batch member: status becomes `processing` and one history record is
appended per dispatch. -/
def dispatchEntries (s : SchedulerState) (batch : List CallEntry) : SchedulerState :=
  { s with
    entries := s.entries.map (fun e =>
      if batch.any (fun b => b.id == e.id) then
        { e with status := CallEntryStatus.processing }
      else e),
    history := s.history ++ batch.map (fun b => { entryId := b.id, timestamp := s.now }),
    cycleTimer := none }

/-- `_onCycleTimerTick` (lines 183-225). -/
def onCycleTimerTick (cfg : Config) (s : SchedulerState) : SchedulerState :=
  if statusCount s CallEntryStatus.waiting = 0 then
    { s with cycleTimer := none }
  else
    let batch := dispatchBatch cfg s
    if batch.isEmpty then planNextCycle cfg { s with cycleTimer := none }
    else planNextCycle cfg (dispatchEntries s batch)

/-- The success continuation of `_processEntry` (lines 237-240), per entry;
the `aborted` guard models the reset suppression of §5 of the spec. -/
def onEntrySuccess (e : CallEntry) (v : Nat) : CallEntry × Option SettleOutcome :=
  ({ e with status := CallEntryStatus.done },
   if e.aborted then none else some (SettleOutcome.resolved v))

/-- The failure continuation of `_processEntry` (lines 241-257), per entry:
increment `attempts`; on attempt exhaustion reject at once; otherwise
consult the classification chain and either go back to `waiting` with
`delay = now + delayOnRetry` or reject. -/
def onEntryFailure (cfg : Config) (handlers : List ErrorHandler) (now err : Nat)
    (e : CallEntry) : CallEntry × Option SettleOutcome :=
  let e1 := { e with attempts := e.attempts + 1 }
  if cfg.maxRetryAttempts ≤ e1.attempts then
    ({ e1 with status := CallEntryStatus.done },
     if e.aborted then none else some (SettleOutcome.rejected (some err)))
  else if getHandler handlers err then
    ({ e1 with status := CallEntryStatus.waiting, delay := now + cfg.delayOnRetry }, none)
  else
    ({ e1 with status := CallEntryStatus.done },
     if e.aborted then none else some (SettleOutcome.rejected (some err)))

/-- A target completion with a value: the success handler runs for the entry
with this id, then `_planNextCycle` (lines 258-259). -/
def completeSuccess (cfg : Config) (s : SchedulerState) (id v : Nat) : SchedulerState :=
  planNextCycle cfg
    { s with
      entries := s.entries.map (fun e => if e.id == id then (onEntrySuccess e v).1 else e),
      settled := s.settled ++ s.entries.filterMap (fun e =>
        if e.id == id then (onEntrySuccess e v).2.map (fun ev => (e.id, ev)) else none) }

/-- A target completion with an error: the failure handler runs for the
entry with this id, then `_planNextCycle`. -/
def completeFailure (cfg : Config) (s : SchedulerState) (id err : Nat) : SchedulerState :=
  planNextCycle cfg
    { s with
      entries := s.entries.map (fun e =>
        if e.id == id then (onEntryFailure cfg s.errorHandlers s.now err e).1 else e),
      settled := s.settled ++ s.entries.filterMap (fun e =>
        if e.id == id then
          (onEntryFailure cfg s.errorHandlers s.now err e).2.map (fun ev => (e.id, ev))
        else none) }

/-- `_onWrapperCalled` (lines 279-306): insert the `init` entry, run
`_planNextCycle`, then synchronously attach the settlement callbacks and set
the status to `waiting` inside the promise executor.  The three parts run
in one synchronous JS step, hence one atomic transition. -/
def onWrapperCalled (cfg : Config) (s : SchedulerState) : SchedulerState :=
  let id := s.lastId + 1
  let fresh : CallEntry :=
    { id := id, hasSettlement := false, status := CallEntryStatus.init,
      attempts := 0, delay := 0, aborted := false }
  let s1 := planNextCycle cfg { s with entries := s.entries ++ [fresh], lastId := id }
  { s1 with entries := s1.entries.map (fun e =>
      if e.id == id then { e with hasSettlement := true, status := CallEntryStatus.waiting }
      else e) }

/-- `onError` (lines 93-96): `unshift` the handler, so the most recently
registered handler is consulted first. -/
def onErrorRegister (h : ErrorHandler) (s : SchedulerState) : SchedulerState :=
  { s with errorHandlers := h :: s.errorHandlers }

/-- Passage of time on the cooperative timeline. -/
def advanceTime (dt : Nat) (s : SchedulerState) : SchedulerState :=
  { s with now := s.now + dt }

/-- Modelled from the spec: the `reset(reason?)` operation (`rejectAll` in
the tests and README) is not present in `src/src/index.ts`.  Following §5 of
the spec: mark in-flight (`processing`) entries so that their outcome is
discarded, clear the armed wake-up, and discard all `waiting`/`init` entries
outright, rejecting their deferred results immediately with the supplied
reason (or the default `undefined`, modelled as `none`). -/
def reset (reason : Option Nat) (s : SchedulerState) : SchedulerState :=
  { s with
    entries := (s.entries.filter (fun e =>
        decide (e.status = CallEntryStatus.processing ∨ e.status = CallEntryStatus.done))).map
      (fun e => if e.status = CallEntryStatus.processing then { e with aborted := true } else e),
    settled := s.settled ++ (s.entries.filter (fun e =>
        decide (e.status = CallEntryStatus.init ∨ e.status = CallEntryStatus.waiting))).map
      (fun e => (e.id, SettleOutcome.rejected reason)),
    cycleTimer := none }

/-- Outcome of one invocation of the wrapped target. -/
inductive CallOutcome
  | success (v : Nat)
  | failure (err : Nat)
deriving DecidableEq

/-- One entry driven through successive dispatches by the lifecycle driver:
each list element is (dispatch time, outcome of that invocation); the loop
continues while `_processEntry` puts the entry back into `waiting`.  Returns
the final entry, the settlements fired and the number of invocations. -/
def runEntry (cfg : Config) (handlers : List ErrorHandler) :
    CallEntry → List (Nat × CallOutcome) → CallEntry × List SettleOutcome × Nat
  | e, [] => (e, [], 0)
  | e, (_, CallOutcome.success v) :: _ =>
      ((onEntrySuccess e v).1, (onEntrySuccess e v).2.toList, 1)
  | e, (t, CallOutcome.failure err) :: rest =>
      let p := onEntryFailure cfg handlers t err e
      if p.1.status = CallEntryStatus.waiting then
        let q := runEntry cfg handlers p.1 rest
        (q.1, p.2.toList ++ q.2.1, q.2.2 + 1)
      else (p.1, p.2.toList, 1)

/-- One atomic step of the scheduler's cooperative timeline. -/
inductive Step (cfg : Config) : SchedulerState → SchedulerState → Prop
  | wrapper (s : SchedulerState) : Step cfg s (onWrapperCalled cfg s)
  | tick (s : SchedulerState) : Step cfg s (onCycleTimerTick cfg s)
  | success (s : SchedulerState) (id v : Nat)
      (h : ∃ e ∈ s.entries, e.id = id ∧ e.status = CallEntryStatus.processing) :
      Step cfg s (completeSuccess cfg s id v)
  | failure (s : SchedulerState) (id err : Nat)
      (h : ∃ e ∈ s.entries, e.id = id ∧ e.status = CallEntryStatus.processing) :
      Step cfg s (completeFailure cfg s id err)
  | registerHandler (s : SchedulerState) (h : ErrorHandler) :
      Step cfg s (onErrorRegister h s)
  | rejectAll (s : SchedulerState) (reason : Option Nat) : Step cfg s (reset reason s)
  | advance (s : SchedulerState) (dt : Nat) : Step cfg s (advanceTime dt s)

/-- States reachable from a freshly constructed instance. -/
inductive Reachable (cfg : Config) : SchedulerState → Prop
  | init : Reachable cfg initialState
  | step {s s' : SchedulerState} : Reachable cfg s → Step cfg s s' → Reachable cfg s'

/-- Dispatch timestamps of one entry, in insertion order. -/
def tsOf (h : List CallHistory) (id : Nat) : List Nat :=
  (h.filter (fun r => decide (r.entryId = id))).map (·.timestamp)

/-- Number of dispatch records in the closed window `[T - len, T]`. -/
def windowCount (h : List CallHistory) (T len : Nat) : Nat :=
  h.countP (fun r => decide (T - len ≤ r.timestamp ∧ r.timestamp ≤ T))

/-- `_shouldRetryOnError` (lines 263-271) as a function of the instance
state: evaluate the chain from its head (most recently registered first). -/
def shouldRetryOnError (s : SchedulerState) (err : Nat) : Bool :=
  getHandler s.errorHandlers err

/-- Invariant carried over all reachable states: monotone unique ids, every
persistent entry already has its settlement callbacks and has left `init`,
the concurrency bound, history timestamps bounded by the clock, history ids
bounded by `lastId`, the rolling-window bound, waiting entries not eligible
before one retry delay after their last dispatch, and consecutive dispatches
of any entry separated by at least one retry delay. -/
structure Inv (cfg : Config) (s : SchedulerState) : Prop where
  ids_le : ∀ e ∈ s.entries, e.id ≤ s.lastId
  ids_sorted : s.entries.Pairwise (fun a b => a.id < b.id)
  has_settlement : ∀ e ∈ s.entries,
    e.hasSettlement = true ∧ e.status ≠ CallEntryStatus.init
  conc_bound : ∀ C, cfg.maxConcurrentCalls = some C →
    statusCount s CallEntryStatus.processing ≤ C
  hist_ts_le : ∀ r ∈ s.history, r.timestamp ≤ s.now
  hist_id_le : ∀ r ∈ s.history, r.entryId ≤ s.lastId
  window_bound : ∀ M len, cfg.maxCallsPerInterval = some M → cfg.intervalLength = some len →
    ∀ T, windowCount s.history T len ≤ M
  waiting_delay : ∀ e ∈ s.entries, e.status = CallEntryStatus.waiting →
    ∀ ts ∈ tsOf s.history e.id, ts + cfg.delayOnRetry ≤ e.delay
  gaps : ∀ id, List.Chain' (fun a b => a + cfg.delayOnRetry ≤ b) (tsOf s.history id)


/-! ### Projections of the state operations -/

theorem planNextCycle_entries (cfg : Config) (s : SchedulerState) :
    (planNextCycle cfg s).entries = s.entries := by
  unfold planNextCycle
  split
  · rfl
  · split <;> rfl

theorem planNextCycle_history (cfg : Config) (s : SchedulerState) :
    (planNextCycle cfg s).history = s.history := by
  unfold planNextCycle
  split
  · rfl
  · split <;> rfl

theorem planNextCycle_settled (cfg : Config) (s : SchedulerState) :
    (planNextCycle cfg s).settled = s.settled := by
  unfold planNextCycle
  split
  · rfl
  · split <;> rfl

theorem planNextCycle_lastId (cfg : Config) (s : SchedulerState) :
    (planNextCycle cfg s).lastId = s.lastId := by
  unfold planNextCycle
  split
  · rfl
  · split <;> rfl

theorem planNextCycle_now (cfg : Config) (s : SchedulerState) :
    (planNextCycle cfg s).now = s.now := by
  unfold planNextCycle
  split
  · rfl
  · split <;> rfl

theorem planNextCycle_errorHandlers (cfg : Config) (s : SchedulerState) :
    (planNextCycle cfg s).errorHandlers = s.errorHandlers := by
  unfold planNextCycle
  split
  · rfl
  · split <;> rfl

theorem onWrapperCalled_entries (cfg : Config) (s : SchedulerState) :
    (onWrapperCalled cfg s).entries =
      (s.entries ++
        [({ id := s.lastId + 1, hasSettlement := false, status := CallEntryStatus.init,
            attempts := 0, delay := 0, aborted := false } : CallEntry)]).map
        (fun e => if e.id == s.lastId + 1 then
            { e with hasSettlement := true, status := CallEntryStatus.waiting }
          else e) := by
  simp only [onWrapperCalled, planNextCycle_entries]

theorem onWrapperCalled_history (cfg : Config) (s : SchedulerState) :
    (onWrapperCalled cfg s).history = s.history := by
  unfold onWrapperCalled
  rw [planNextCycle_history]

theorem onWrapperCalled_settled (cfg : Config) (s : SchedulerState) :
    (onWrapperCalled cfg s).settled = s.settled := by
  unfold onWrapperCalled
  rw [planNextCycle_settled]

theorem onWrapperCalled_lastId (cfg : Config) (s : SchedulerState) :
    (onWrapperCalled cfg s).lastId = s.lastId + 1 := by
  unfold onWrapperCalled
  rw [planNextCycle_lastId]

theorem onWrapperCalled_now (cfg : Config) (s : SchedulerState) :
    (onWrapperCalled cfg s).now = s.now := by
  unfold onWrapperCalled
  rw [planNextCycle_now]

theorem onWrapperCalled_errorHandlers (cfg : Config) (s : SchedulerState) :
    (onWrapperCalled cfg s).errorHandlers = s.errorHandlers := by
  unfold onWrapperCalled
  rw [planNextCycle_errorHandlers]

theorem completeSuccess_entries (cfg : Config) (s : SchedulerState) (id v : Nat) :
    (completeSuccess cfg s id v).entries =
      s.entries.map (fun e => if e.id == id then (onEntrySuccess e v).1 else e) := by
  unfold completeSuccess
  rw [planNextCycle_entries]

theorem completeSuccess_settled (cfg : Config) (s : SchedulerState) (id v : Nat) :
    (completeSuccess cfg s id v).settled =
      s.settled ++ s.entries.filterMap (fun e =>
        if e.id == id then (onEntrySuccess e v).2.map (fun ev => (e.id, ev)) else none) := by
  unfold completeSuccess
  rw [planNextCycle_settled]

theorem completeSuccess_history (cfg : Config) (s : SchedulerState) (id v : Nat) :
    (completeSuccess cfg s id v).history = s.history := by
  unfold completeSuccess
  rw [planNextCycle_history]

theorem completeSuccess_lastId (cfg : Config) (s : SchedulerState) (id v : Nat) :
    (completeSuccess cfg s id v).lastId = s.lastId := by
  unfold completeSuccess
  rw [planNextCycle_lastId]

theorem completeSuccess_now (cfg : Config) (s : SchedulerState) (id v : Nat) :
    (completeSuccess cfg s id v).now = s.now := by
  unfold completeSuccess
  rw [planNextCycle_now]

theorem completeFailure_entries (cfg : Config) (s : SchedulerState) (id err : Nat) :
    (completeFailure cfg s id err).entries =
      s.entries.map (fun e =>
        if e.id == id then (onEntryFailure cfg s.errorHandlers s.now err e).1 else e) := by
  unfold completeFailure
  rw [planNextCycle_entries]

theorem completeFailure_settled (cfg : Config) (s : SchedulerState) (id err : Nat) :
    (completeFailure cfg s id err).settled =
      s.settled ++ s.entries.filterMap (fun e =>
        if e.id == id then
          (onEntryFailure cfg s.errorHandlers s.now err e).2.map (fun ev => (e.id, ev))
        else none) := by
  unfold completeFailure
  rw [planNextCycle_settled]

theorem completeFailure_history (cfg : Config) (s : SchedulerState) (id err : Nat) :
    (completeFailure cfg s id err).history = s.history := by
  unfold completeFailure
  rw [planNextCycle_history]

theorem completeFailure_lastId (cfg : Config) (s : SchedulerState) (id err : Nat) :
    (completeFailure cfg s id err).lastId = s.lastId := by
  unfold completeFailure
  rw [planNextCycle_lastId]

theorem completeFailure_now (cfg : Config) (s : SchedulerState) (id err : Nat) :
    (completeFailure cfg s id err).now = s.now := by
  unfold completeFailure
  rw [planNextCycle_now]

/-! ### Counting helpers -/

theorem countP_or_le {α : Type} (l : List α) (p q : α → Bool) :
    l.countP (fun a => p a || q a) ≤ l.countP p + l.countP q := by
  induction l with
  | nil => simp
  | cons a tl ih =>
    simp only [List.countP_cons]
    cases hp : p a <;> cases hq : q a <;> simp [hp, hq] <;> omega

/-- In a list of entries with pairwise distinct ids, at most `batch.length`
entries have the id of some batch member. -/
theorem countP_idmatch_le (l : List CallEntry)
    (hl : l.Pairwise (fun a b => a.id ≠ b.id)) (batch : List CallEntry) :
    l.countP (fun e => batch.any (fun b => b.id == e.id)) ≤ batch.length := by
  induction l generalizing batch with
  | nil => simp
  | cons a tl ih =>
    rw [List.countP_cons]
    rcases List.pairwise_cons.mp hl with ⟨hhead, htail⟩
    by_cases ha : (batch.any (fun b => b.id == a.id)) = true
    · rcases List.any_eq_true.mp ha with ⟨b, hbm, hbe⟩
      have hbid : b.id = a.id := by simpa using hbe
      have hpos : 0 < batch.length := List.length_pos_of_mem hbm
      have hcong : tl.countP (fun e => batch.any (fun x => x.id == e.id)) =
          tl.countP (fun e => (batch.erase b).any (fun x => x.id == e.id)) := by
        refine List.countP_congr (fun e he => ?_)
        constructor
        · intro hx
          rcases List.any_eq_true.mp hx with ⟨x, hxm, hxe⟩
          have hxid : x.id = e.id := by simpa using hxe
          have hne : x ≠ b := by
            intro hxb
            subst hxb
            refine (hhead e he) ?_
            rw [← hbid]
            exact hxid
          exact List.any_eq_true.mpr ⟨x, (List.mem_erase_of_ne hne).mpr hxm, hxe⟩
        · intro hx
          rcases List.any_eq_true.mp hx with ⟨x, hxm, hxe⟩
          exact List.any_eq_true.mpr ⟨x, (List.erase_sublist _ _).subset hxm, hxe⟩
      have hlen : (batch.erase b).length = batch.length - 1 := List.length_erase_of_mem hbm
      have := ih htail (batch.erase b)
      rw [hcong, ha]
      simp only [if_true]
      omega
    · rw [if_neg ha]
      simpa using ih htail batch

/-! ### tsOf helpers -/

theorem tsOf_append (h₁ h₂ : List CallHistory) (id : Nat) :
    tsOf (h₁ ++ h₂) id = tsOf h₁ id ++ tsOf h₂ id := by
  unfold tsOf
  rw [List.filter_append, List.map_append]

theorem tsOf_eq_nil (h : List CallHistory) (id : Nat)
    (hid : ∀ r ∈ h, r.entryId ≠ id) : tsOf h id = [] := by
  unfold tsOf
  have : h.filter (fun r => decide (r.entryId = id)) = [] := by
    rw [List.filter_eq_nil_iff]
    intro r hr
    simpa using hid r hr
  rw [this]
  rfl

theorem mem_tsOf (h : List CallHistory) (id : Nat) (ts : Nat) (hts : ts ∈ tsOf h id) :
    ∃ r ∈ h, r.entryId = id ∧ r.timestamp = ts := by
  unfold tsOf at hts
  rcases List.mem_map.mp hts with ⟨r, hr, rfl⟩
  rcases List.mem_filter.mp hr with ⟨hrh, hrid⟩
  exact ⟨r, hrh, by simpa using hrid, rfl⟩

/-- In a list of entries with pairwise distinct ids, filtering by the id of a
member gives exactly that member. -/
theorem filter_id_eq_singleton (l : List CallEntry)
    (hl : l.Pairwise (fun a b => a.id ≠ b.id)) (b : CallEntry) (hb : b ∈ l) :
    l.filter (fun x => decide (x.id = b.id)) = [b] := by
  induction l with
  | nil => cases hb
  | cons a tl ih =>
    rcases List.pairwise_cons.mp hl with ⟨hhead, htail⟩
    rcases List.mem_cons.mp hb with hba | hbtl
    · subst hba
      rw [List.filter_cons, if_pos (by simp)]
      have hnil : tl.filter (fun x => decide (x.id = b.id)) = [] := by
        rw [List.filter_eq_nil_iff]
        intro x hx
        simp only [decide_eq_true_eq]
        exact fun hc => (hhead x hx) hc.symm
      rw [hnil]
    · rw [List.filter_cons, if_neg (by simpa using hhead b hbtl)]
      exact ih htail hbtl

/-! ### Facts about the per-entry completion handlers -/

theorem onEntrySuccess_fst (e : CallEntry) (v : Nat) :
    (onEntrySuccess e v).1 = { e with status := CallEntryStatus.done } := rfl

theorem onEntryFailure_fst_id (cfg : Config) (hs : List ErrorHandler) (now err : Nat)
    (e : CallEntry) : (onEntryFailure cfg hs now err e).1.id = e.id := by
  simp only [onEntryFailure]
  split_ifs <;> rfl

theorem onEntryFailure_fst_hasSettlement (cfg : Config) (hs : List ErrorHandler)
    (now err : Nat) (e : CallEntry) :
    (onEntryFailure cfg hs now err e).1.hasSettlement = e.hasSettlement := by
  simp only [onEntryFailure]
  split_ifs <;> rfl

theorem onEntryFailure_fst_aborted (cfg : Config) (hs : List ErrorHandler)
    (now err : Nat) (e : CallEntry) :
    (onEntryFailure cfg hs now err e).1.aborted = e.aborted := by
  simp only [onEntryFailure]
  split_ifs <;> rfl

theorem onEntryFailure_fst_attempts (cfg : Config) (hs : List ErrorHandler)
    (now err : Nat) (e : CallEntry) :
    (onEntryFailure cfg hs now err e).1.attempts = e.attempts + 1 := by
  simp only [onEntryFailure]
  split_ifs <;> rfl

theorem onEntryFailure_status_cases (cfg : Config) (hs : List ErrorHandler)
    (now err : Nat) (e : CallEntry) :
    (onEntryFailure cfg hs now err e).1.status = CallEntryStatus.done ∨
      ((onEntryFailure cfg hs now err e).1.status = CallEntryStatus.waiting ∧
        (onEntryFailure cfg hs now err e).1.delay = now + cfg.delayOnRetry) := by
  simp only [onEntryFailure]
  split_ifs <;> first
    | exact Or.inl rfl
    | exact Or.inr ⟨rfl, rfl⟩

/-! ### The reachability invariant -/

theorem statusCount_congr {s s' : SchedulerState} (st : CallEntryStatus)
    (h : s'.entries = s.entries) : statusCount s' st = statusCount s st := by
  unfold statusCount
  rw [h]

theorem inv_congr (cfg : Config) {s s' : SchedulerState} (h : Inv cfg s)
    (he : s'.entries = s.entries) (hh : s'.history = s.history)
    (hl : s'.lastId = s.lastId) (hn : s'.now = s.now) : Inv cfg s' := by
  obtain ⟨i1, i2, i3, i4, i5, i6, i7, i8, i9⟩ := h
  refine ⟨?_, ?_, ?_, ?_, ?_, ?_, ?_, ?_, ?_⟩
  · rw [he, hl]; exact i1
  · rw [he]; exact i2
  · rw [he]; exact i3
  · intro C hC
    rw [statusCount_congr _ he]
    exact i4 C hC
  · rw [hh, hn]; exact i5
  · rw [hh, hl]; exact i6
  · intro M len h1 h2 T
    rw [hh]
    exact i7 M len h1 h2 T
  · rw [he, hh]; exact i8
  · intro id
    rw [hh]
    exact i9 id

theorem inv_initialState (cfg : Config) : Inv cfg initialState := by
  refine ⟨?_, ?_, ?_, ?_, ?_, ?_, ?_, ?_, ?_⟩ <;>
    simp [initialState, statusCount, windowCount, tsOf]

theorem inv_planNextCycle (cfg : Config) {s : SchedulerState} (h : Inv cfg s) :
    Inv cfg (planNextCycle cfg s) :=
  inv_congr cfg h (planNextCycle_entries cfg s) (planNextCycle_history cfg s)
    (planNextCycle_lastId cfg s) (planNextCycle_now cfg s)

theorem inv_onErrorRegister (cfg : Config) {s : SchedulerState} (h : Inv cfg s)
    (f : ErrorHandler) : Inv cfg (onErrorRegister f s) :=
  inv_congr cfg h rfl rfl rfl rfl

theorem inv_advanceTime (cfg : Config) {s : SchedulerState} (h : Inv cfg s) (dt : Nat) :
    Inv cfg (advanceTime dt s) := by
  obtain ⟨i1, i2, i3, i4, i5, i6, i7, i8, i9⟩ := h
  exact ⟨i1, i2, i3, i4, fun r hr => Nat.le_trans (i5 r hr) (Nat.le_add_right _ _),
    i6, i7, i8, i9⟩

theorem inv_reset (cfg : Config) {s : SchedulerState} (h : Inv cfg s)
    (reason : Option Nat) : Inv cfg (reset reason s) := by
  obtain ⟨i1, i2, i3, i4, i5, i6, i7, i8, i9⟩ := h
  have hmark : ∀ e : CallEntry,
      (if e.status = CallEntryStatus.processing then { e with aborted := true } else e).id = e.id ∧
      (if e.status = CallEntryStatus.processing then { e with aborted := true } else e).status
        = e.status ∧
      (if e.status = CallEntryStatus.processing then { e with aborted := true } else e).hasSettlement
        = e.hasSettlement := by
    intro e
    by_cases hp : e.status = CallEntryStatus.processing <;> simp [hp]
  have hmem : ∀ e', e' ∈ (reset reason s).entries →
      ∃ y ∈ s.entries, (y.status = CallEntryStatus.processing ∨ y.status = CallEntryStatus.done) ∧
        e' = (if y.status = CallEntryStatus.processing then { y with aborted := true } else y) := by
    intro e' he'
    unfold reset at he'
    dsimp only at he'
    rcases List.mem_map.mp he' with ⟨y, hy, hye⟩
    rcases List.mem_filter.mp hy with ⟨hys, hyp⟩
    exact ⟨y, hys, of_decide_eq_true hyp, hye.symm⟩
  refine ⟨?_, ?_, ?_, ?_, ?_, ?_, ?_, ?_, ?_⟩
  · intro e' he'
    rcases hmem e' he' with ⟨y, hy, _, rfl⟩
    rw [(hmark y).1]
    exact i1 y hy
  · show (((s.entries.filter _).map _)).Pairwise _
    rw [List.pairwise_map]
    refine List.Pairwise.imp ?_ (List.Pairwise.sublist (List.filter_sublist _) i2)
    intro a b hab
    rw [(hmark a).1, (hmark b).1]
    exact hab
  · intro e' he'
    rcases hmem e' he' with ⟨y, hy, hst, rfl⟩
    rw [(hmark y).2.1, (hmark y).2.2]
    exact i3 y hy
  · intro C hC
    unfold statusCount reset
    dsimp only
    rw [List.countP_map]
    have hle : (s.entries.filter (fun e =>
        decide (e.status = CallEntryStatus.processing ∨ e.status = CallEntryStatus.done))).countP
          (fun y => decide (((if y.status = CallEntryStatus.processing then
            { y with aborted := true } else y)).status = CallEntryStatus.processing)) ≤
        s.entries.countP (fun e => decide (e.status = CallEntryStatus.processing)) := by
      refine Nat.le_trans (Nat.le_of_eq (List.countP_congr (fun y _ => ?_)))
        (List.Sublist.countP_le _ (List.filter_sublist _))
      rw [(hmark y).2.1]
    have := i4 C hC
    unfold statusCount at this
    exact Nat.le_trans (by exact hle) this
  · exact i5
  · exact i6
  · exact i7
  · intro e' he' hw
    rcases hmem e' he' with ⟨y, hy, hst, rfl⟩
    exfalso
    rcases hst with hp | hd
    · rw [(hmark y).2.1, hp] at hw
      exact CallEntryStatus.noConfusion hw
    · rw [(hmark y).2.1, hd] at hw
      exact CallEntryStatus.noConfusion hw
  · exact i9

/-- Generic preservation lemma for the completion handlers: mapping a
per-entry update over the entries preserves the invariant provided the
update keeps ids and settlements, never (re)enters `init` or `processing`,
and any entry left in `waiting` either is untouched or got the fresh retry
eligibility time. -/
theorem inv_entries_map_update (cfg : Config) {s : SchedulerState} (h : Inv cfg s)
    (f : CallEntry → CallEntry)
    (hid : ∀ e, (f e).id = e.id)
    (hset : ∀ e, (f e).hasSettlement = e.hasSettlement)
    (hninit : ∀ e ∈ s.entries, (f e).status ≠ CallEntryStatus.init)
    (hnproc : ∀ e, (f e).status = CallEntryStatus.processing →
      e.status = CallEntryStatus.processing)
    (hwait : ∀ e ∈ s.entries, (f e).status = CallEntryStatus.waiting →
      ((f e).delay = e.delay ∧ e.status = CallEntryStatus.waiting) ∨
        (f e).delay = s.now + cfg.delayOnRetry)
    (s' : SchedulerState)
    (he : s'.entries = s.entries.map f) (hh : s'.history = s.history)
    (hl : s'.lastId = s.lastId) (hn : s'.now = s.now) : Inv cfg s' := by
  obtain ⟨i1, i2, i3, i4, i5, i6, i7, i8, i9⟩ := h
  refine ⟨?_, ?_, ?_, ?_, ?_, ?_, ?_, ?_, ?_⟩
  · intro e' he'
    rw [he] at he'
    rcases List.mem_map.mp he' with ⟨e, hee, rfl⟩
    rw [hid e, hl]
    exact i1 e hee
  · rw [he, List.pairwise_map]
    refine List.Pairwise.imp ?_ i2
    intro a b hab
    rw [hid a, hid b]
    exact hab
  · intro e' he'
    rw [he] at he'
    rcases List.mem_map.mp he' with ⟨e, hee, rfl⟩
    rw [hset e]
    exact ⟨(i3 e hee).1, hninit e hee⟩
  · intro C hC
    unfold statusCount
    rw [he, List.countP_map]
    have hmono : s.entries.countP
        ((fun e => decide (e.status = CallEntryStatus.processing)) ∘ f) ≤
        s.entries.countP (fun e => decide (e.status = CallEntryStatus.processing)) :=
      List.countP_mono_left (fun e _ hp => decide_eq_true (hnproc e (of_decide_eq_true hp)))
    exact Nat.le_trans hmono (i4 C hC)
  · rw [hh, hn]; exact i5
  · rw [hh, hl]; exact i6
  · intro M len h1 h2 T
    rw [hh]
    exact i7 M len h1 h2 T
  · intro e' he' hw ts hts
    rw [he] at he'
    rcases List.mem_map.mp he' with ⟨e, hee, rfl⟩
    rw [hh, hid e] at hts
    rcases hwait e hee hw with ⟨hd, hew⟩ | hd
    · rw [hd]
      exact i8 e hee hew ts hts
    · rw [hd]
      rcases mem_tsOf s.history e.id ts hts with ⟨r, hr, _, rfl⟩
      exact Nat.add_le_add_right (i5 r hr) cfg.delayOnRetry
  · intro id
    rw [hh]
    exact i9 id

theorem inv_completeSuccess (cfg : Config) {s : SchedulerState} (h : Inv cfg s)
    (id v : Nat) : Inv cfg (completeSuccess cfg s id v) := by
  unfold completeSuccess
  refine inv_planNextCycle cfg ?_
  refine inv_entries_map_update cfg h
    (fun e => if e.id == id then (onEntrySuccess e v).1 else e)
    ?_ ?_ ?_ ?_ ?_ _ rfl rfl rfl rfl
  · intro e
    by_cases hc : (e.id == id) = true <;> simp [hc, onEntrySuccess]
  · intro e
    by_cases hc : (e.id == id) = true <;> simp [hc, onEntrySuccess]
  · intro e hee
    by_cases hc : (e.id == id) = true <;> simp [hc, onEntrySuccess]
    exact (h.has_settlement e hee).2
  · intro e hp
    dsimp only at hp
    by_cases hc : (e.id == id) = true
    · rw [if_pos hc] at hp
      exact absurd hp (by simp [onEntrySuccess])
    · rw [if_neg hc] at hp
      exact hp
  · intro e _ hw
    dsimp only at hw ⊢
    by_cases hc : (e.id == id) = true
    · rw [if_pos hc] at hw
      exact absurd hw (by simp [onEntrySuccess])
    · rw [if_neg hc] at hw ⊢
      exact Or.inl ⟨rfl, hw⟩

theorem inv_completeFailure (cfg : Config) {s : SchedulerState} (h : Inv cfg s)
    (id err : Nat) : Inv cfg (completeFailure cfg s id err) := by
  unfold completeFailure
  refine inv_planNextCycle cfg ?_
  refine inv_entries_map_update cfg h
    (fun e => if e.id == id then (onEntryFailure cfg s.errorHandlers s.now err e).1 else e)
    ?_ ?_ ?_ ?_ ?_ _ rfl rfl rfl rfl
  · intro e
    by_cases hc : (e.id == id) = true <;>
      simp [hc, onEntryFailure_fst_id]
  · intro e
    by_cases hc : (e.id == id) = true <;>
      simp [hc, onEntryFailure_fst_hasSettlement]
  · intro e hee
    dsimp only
    by_cases hc : (e.id == id) = true
    · rw [if_pos hc]
      rcases onEntryFailure_status_cases cfg s.errorHandlers s.now err e with hs | ⟨hs, _⟩ <;>
        simp [hs]
    · rw [if_neg hc]
      exact (h.has_settlement e hee).2
  · intro e hp
    dsimp only at hp
    by_cases hc : (e.id == id) = true
    · rw [if_pos hc] at hp
      rcases onEntryFailure_status_cases cfg s.errorHandlers s.now err e with hs | ⟨hs, _⟩ <;>
        rw [hs] at hp <;> exact absurd hp (by simp)
    · rw [if_neg hc] at hp
      exact hp
  · intro e _ hw
    dsimp only at hw ⊢
    by_cases hc : (e.id == id) = true
    · rw [if_pos hc] at hw ⊢
      rcases onEntryFailure_status_cases cfg s.errorHandlers s.now err e with hs | ⟨_, hd⟩
      · rw [hs] at hw
        exact absurd hw (by simp)
      · exact Or.inr hd
    · rw [if_neg hc] at hw ⊢
      exact Or.inl ⟨rfl, hw⟩

theorem onWrapperCalled_entries_of_le (cfg : Config) (s : SchedulerState)
    (hle : ∀ e ∈ s.entries, e.id ≤ s.lastId) :
    (onWrapperCalled cfg s).entries = s.entries ++
      [({ id := s.lastId + 1, hasSettlement := true, status := CallEntryStatus.waiting,
          attempts := 0, delay := 0, aborted := false } : CallEntry)] := by
  rw [onWrapperCalled_entries, List.map_append]
  congr 1
  · have hmc : s.entries.map (fun e =>
        if e.id == s.lastId + 1 then
          { e with hasSettlement := true, status := CallEntryStatus.waiting }
        else e) = s.entries.map id := by
      refine List.map_congr_left (fun e he => ?_)
      have hne : (e.id == s.lastId + 1) = false := by
        simp only [beq_eq_false_iff_ne]
        exact Nat.ne_of_lt (Nat.lt_succ_of_le (hle e he))
      rw [hne]
      rfl
    rw [hmc, List.map_id]
  · simp

theorem inv_onWrapperCalled (cfg : Config) {s : SchedulerState} (h : Inv cfg s) :
    Inv cfg (onWrapperCalled cfg s) := by
  obtain ⟨i1, i2, i3, i4, i5, i6, i7, i8, i9⟩ := h
  have hent := onWrapperCalled_entries_of_le cfg s i1
  refine ⟨?_, ?_, ?_, ?_, ?_, ?_, ?_, ?_, ?_⟩
  · intro e he
    rw [hent] at he
    rw [onWrapperCalled_lastId]
    rcases List.mem_append.mp he with hold | hnew
    · exact Nat.le_succ_of_le (i1 e hold)
    · rcases List.mem_singleton.mp hnew with rfl
      exact Nat.le_refl _
  · rw [hent]
    rw [List.pairwise_append]
    refine ⟨i2, List.pairwise_singleton _ _, ?_⟩
    intro a ha b hb
    rcases List.mem_singleton.mp hb with rfl
    exact Nat.lt_succ_of_le (i1 a ha)
  · intro e he
    rw [hent] at he
    rcases List.mem_append.mp he with hold | hnew
    · exact i3 e hold
    · rcases List.mem_singleton.mp hnew with rfl
      exact ⟨rfl, by simp⟩
  · intro C hC
    unfold statusCount
    rw [hent, List.countP_append]
    have hz : List.countP (fun e => decide (e.status = CallEntryStatus.processing))
        [({ id := s.lastId + 1, hasSettlement := true, status := CallEntryStatus.waiting,
            attempts := 0, delay := 0, aborted := false } : CallEntry)] = 0 := by
      simp
    rw [hz]
    simpa [statusCount] using i4 C hC
  · rw [onWrapperCalled_history, onWrapperCalled_now]
    exact i5
  · rw [onWrapperCalled_history, onWrapperCalled_lastId]
    exact fun r hr => Nat.le_succ_of_le (i6 r hr)
  · intro M len h1 h2 T
    rw [onWrapperCalled_history]
    exact i7 M len h1 h2 T
  · intro e he hw ts hts
    rw [onWrapperCalled_history] at hts
    rw [hent] at he
    rcases List.mem_append.mp he with hold | hnew
    · exact i8 e hold hw ts hts
    · rcases List.mem_singleton.mp hnew with rfl
      have hnil : tsOf s.history (s.lastId + 1) = [] := by
        refine tsOf_eq_nil s.history (s.lastId + 1) (fun r hr => ?_)
        exact Nat.ne_of_lt (Nat.lt_succ_of_le (i6 r hr))
      rw [hnil] at hts
      cases hts
  · intro id
    rw [onWrapperCalled_history]
    exact i9 id


/-! ### Dispatch batch facts -/

theorem mem_dispatchBatch {cfg : Config} {s : SchedulerState} {b : CallEntry}
    (hb : b ∈ dispatchBatch cfg s) :
    b ∈ s.entries ∧ b.status = CallEntryStatus.waiting ∧ b.delay < s.now := by
  simp only [dispatchBatch] at hb
  have h1 : b ∈ List.insertionSort leById (eligibleEntries s) :=
    (List.take_sublist _ _).subset hb
  have h2 : b ∈ eligibleEntries s := (List.perm_insertionSort leById _).subset h1
  rcases List.mem_filter.mp h2 with ⟨hbe, hp⟩
  have hp' := of_decide_eq_true hp
  exact ⟨hbe, hp'.1, hp'.2⟩

theorem dispatchBatch_length_le_conc {cfg : Config} {s : SchedulerState} {C : Nat}
    (hC : cfg.maxConcurrentCalls = some C) :
    (dispatchBatch cfg s).length ≤ C - statusCount s CallEntryStatus.processing := by
  simp only [dispatchBatch]
  refine Nat.le_trans (List.length_take_le _ _) ?_
  have : calculateCallsLeftBeforeConcurrentLimit cfg s =
      some (C - statusCount s CallEntryStatus.processing) := by
    unfold calculateCallsLeftBeforeConcurrentLimit
    rw [hC]
  rw [this]
  exact Nat.min_le_left _ _

theorem dispatchBatch_length_le_interval {cfg : Config} {s : SchedulerState} {M len : Nat}
    (hM : cfg.maxCallsPerInterval = some M) (hL : cfg.intervalLength = some len) :
    (dispatchBatch cfg s).length ≤
      M - s.history.countP (fun r => decide (s.now - len ≤ r.timestamp)) := by
  simp only [dispatchBatch]
  refine Nat.le_trans (List.length_take_le _ _) ?_
  have : calculateCallsLeftBeforeIntervalLimit cfg s =
      some (M - s.history.countP (fun r => decide (s.now - len ≤ r.timestamp))) := by
    unfold calculateCallsLeftBeforeIntervalLimit
    rw [hM, hL]
  rw [this]
  exact Nat.min_le_right _ _

theorem dispatchBatch_pairwise_ne {cfg : Config} {s : SchedulerState}
    (hs : s.entries.Pairwise (fun a b => a.id < b.id)) :
    (dispatchBatch cfg s).Pairwise (fun a b => a.id ≠ b.id) := by
  have h0 : s.entries.Pairwise (fun a b => a.id ≠ b.id) :=
    hs.imp (fun hab => Nat.ne_of_lt hab)
  have h1 : (eligibleEntries s).Pairwise (fun a b => a.id ≠ b.id) :=
    List.Pairwise.sublist (List.filter_sublist _) h0
  have h2 : (List.insertionSort leById (eligibleEntries s)).Pairwise
      (fun a b => a.id ≠ b.id) :=
    ((List.perm_insertionSort leById _).pairwise_iff (fun hab => Ne.symm hab)).mpr h1
  simp only [dispatchBatch]
  exact List.Pairwise.sublist (List.take_sublist _ _) h2


/-! ### Effect of a dispatch on counts, windows and per-entry timestamps -/

theorem statusCount_dispatchEntries_le (s : SchedulerState) (batch : List CallEntry)
    (hs : s.entries.Pairwise (fun a b => a.id ≠ b.id)) :
    statusCount (dispatchEntries s batch) CallEntryStatus.processing ≤
      statusCount s CallEntryStatus.processing + batch.length := by
  unfold statusCount dispatchEntries
  dsimp only
  rw [List.countP_map]
  have h1 : s.entries.countP ((fun e => decide (e.status = CallEntryStatus.processing)) ∘
      (fun e => if batch.any (fun b => b.id == e.id) then
        { e with status := CallEntryStatus.processing } else e)) ≤
      s.entries.countP (fun e => (batch.any (fun b => b.id == e.id)) ||
        decide (e.status = CallEntryStatus.processing)) := by
    refine List.countP_mono_left (fun e _ hp => ?_)
    by_cases hc : (batch.any (fun b => b.id == e.id)) = true
    · simp [hc]
    · have hp' : decide (e.status = CallEntryStatus.processing) = true := by
        simpa [Function.comp, hc] using hp
      simp [hc, hp']
  have h2 := countP_or_le s.entries (fun e => batch.any (fun b => b.id == e.id))
    (fun e => decide (e.status = CallEntryStatus.processing))
  have h3 : s.entries.countP (fun e => batch.any (fun b => b.id == e.id)) ≤ batch.length :=
    countP_idmatch_le s.entries hs batch
  omega

theorem windowCount_dispatchEntries (s : SchedulerState) (batch : List CallEntry)
    (T len : Nat) :
    windowCount (dispatchEntries s batch).history T len =
      windowCount s.history T len +
        (if T - len ≤ s.now ∧ s.now ≤ T then batch.length else 0) := by
  unfold windowCount dispatchEntries
  dsimp only
  rw [List.countP_append, List.countP_map]
  congr 1
  by_cases hw : T - len ≤ s.now ∧ s.now ≤ T
  · rw [if_pos hw]
    refine List.countP_eq_length.mpr (fun b _ => ?_)
    exact decide_eq_true hw
  · rw [if_neg hw]
    refine List.countP_eq_zero.mpr (fun b _ => ?_)
    exact fun hc => hw (of_decide_eq_true hc)

theorem tsOf_dispatch_not_mem (s : SchedulerState) (batch : List CallEntry) (id : Nat)
    (hid : (batch.any (fun b => b.id == id)) = false) :
    tsOf (dispatchEntries s batch).history id = tsOf s.history id := by
  unfold dispatchEntries
  dsimp only
  rw [tsOf_append]
  have hnil : tsOf (batch.map (fun b => ({ entryId := b.id, timestamp := s.now } : CallHistory)))
      id = [] := by
    unfold tsOf
    rw [List.filter_map]
    have hfn : batch.filter ((fun r : CallHistory => decide (r.entryId = id)) ∘
        (fun b : CallEntry => ({ entryId := b.id, timestamp := s.now } : CallHistory))) = [] := by
      rw [List.filter_eq_nil_iff]
      intro b hb
      have hnb := List.any_eq_false.mp hid b hb
      simp only [Function.comp, decide_eq_true_eq]
      intro hc
      exact hnb (by simpa using hc)
    rw [hfn]
    rfl
  rw [hnil, List.append_nil]

theorem tsOf_dispatch_mem (s : SchedulerState) (batch : List CallEntry) (b : CallEntry)
    (hnd : batch.Pairwise (fun a b => a.id ≠ b.id)) (hb : b ∈ batch) :
    tsOf (dispatchEntries s batch).history b.id = tsOf s.history b.id ++ [s.now] := by
  unfold dispatchEntries
  dsimp only
  rw [tsOf_append]
  have hone : tsOf (batch.map (fun x => ({ entryId := x.id, timestamp := s.now } : CallHistory)))
      b.id = [s.now] := by
    unfold tsOf
    rw [List.filter_map]
    have hfn : ((fun r : CallHistory => decide (r.entryId = b.id)) ∘
        (fun x : CallEntry => ({ entryId := x.id, timestamp := s.now } : CallHistory))) =
        (fun x : CallEntry => decide (x.id = b.id)) := rfl
    rw [hfn, filter_id_eq_singleton batch hnd b hb]
    rfl
  rw [hone]

theorem inv_dispatchEntries (cfg : Config) {s : SchedulerState} (h : Inv cfg s) :
    Inv cfg (dispatchEntries s (dispatchBatch cfg s)) := by
  obtain ⟨i1, i2, i3, i4, i5, i6, i7, i8, i9⟩ := h
  have hbne : (dispatchBatch cfg s).Pairwise (fun a b => a.id ≠ b.id) :=
    dispatchBatch_pairwise_ne i2
  have hene : s.entries.Pairwise (fun a b => a.id ≠ b.id) :=
    i2.imp (fun hab => Nat.ne_of_lt hab)
  have hupd : ∀ e : CallEntry,
      (if (dispatchBatch cfg s).any (fun b => b.id == e.id) then
        { e with status := CallEntryStatus.processing } else e).id = e.id ∧
      (if (dispatchBatch cfg s).any (fun b => b.id == e.id) then
        { e with status := CallEntryStatus.processing } else e).hasSettlement
        = e.hasSettlement := by
    intro e
    by_cases hc : ((dispatchBatch cfg s).any (fun b => b.id == e.id)) = true <;> simp [hc]
  refine ⟨?_, ?_, ?_, ?_, ?_, ?_, ?_, ?_, ?_⟩
  · intro e' he'
    rcases List.mem_map.mp he' with ⟨e, hee, rfl⟩
    rw [(hupd e).1]
    exact i1 e hee
  · show ((s.entries.map _)).Pairwise _
    rw [List.pairwise_map]
    refine List.Pairwise.imp ?_ i2
    intro a b hab
    rw [(hupd a).1, (hupd b).1]
    exact hab
  · intro e' he'
    rcases List.mem_map.mp he' with ⟨e, hee, rfl⟩
    rw [(hupd e).2]
    refine ⟨(i3 e hee).1, ?_⟩
    by_cases hc : ((dispatchBatch cfg s).any (fun b => b.id == e.id)) = true
    · rw [if_pos hc]
      simp
    · rw [if_neg hc]
      exact (i3 e hee).2
  · intro C hC
    have ha := statusCount_dispatchEntries_le s (dispatchBatch cfg s) hene
    have hb := dispatchBatch_length_le_conc (s := s) hC
    have hc := i4 C hC
    omega
  · intro r hr
    show r.timestamp ≤ s.now
    rcases List.mem_append.mp hr with hold | hnew
    · exact i5 r hold
    · rcases List.mem_map.mp hnew with ⟨b, _, rfl⟩
      exact Nat.le_refl _
  · intro r hr
    show r.entryId ≤ s.lastId
    rcases List.mem_append.mp hr with hold | hnew
    · exact i6 r hold
    · rcases List.mem_map.mp hnew with ⟨b, hbm, rfl⟩
      exact i1 b (mem_dispatchBatch hbm).1
  · intro M len hM hL T
    have hrw := windowCount_dispatchEntries s (dispatchBatch cfg s) T len
    rw [hrw]
    by_cases hw : T - len ≤ s.now ∧ s.now ≤ T
    · rw [if_pos hw]
      have hwc : windowCount s.history T len ≤
          s.history.countP (fun r => decide (s.now - len ≤ r.timestamp)) := by
        refine List.countP_mono_left (fun r _ hp => ?_)
        have hp' := of_decide_eq_true hp
        refine decide_eq_true ?_
        exact Nat.le_trans (Nat.sub_le_sub_right hw.2 len) hp'.1
      have hbl := dispatchBatch_length_le_interval (s := s) hM hL
      have hwcM := i7 M len hM hL T
      omega
    · rw [if_neg hw]
      simpa using i7 M len hM hL T
  · intro e' he' hw ts hts
    rcases List.mem_map.mp he' with ⟨e, hee, rfl⟩
    by_cases hc : ((dispatchBatch cfg s).any (fun b => b.id == e.id)) = true
    · rw [if_pos hc] at hw
      exact absurd hw (by simp)
    · rw [if_neg hc] at hw hts ⊢
      have hcf : ((dispatchBatch cfg s).any (fun b => b.id == e.id)) = false := by
        simpa using hc
      rw [tsOf_dispatch_not_mem s _ e.id hcf] at hts
      exact i8 e hee hw ts hts
  · intro id
    by_cases hc : ((dispatchBatch cfg s).any (fun b => b.id == id)) = true
    · rcases List.any_eq_true.mp hc with ⟨b, hbm, hbid⟩
      have hid' : b.id = id := by simpa using hbid
      subst hid'
      rw [tsOf_dispatch_mem s _ b hbne hbm]
      rw [List.chain'_append]
      refine ⟨i9 b.id, List.chain'_singleton _, ?_⟩
      intro x hx y hy
      have hy' : s.now = y := by simpa using hy
      subst hy'
      have hxmem : x ∈ tsOf s.history b.id := List.mem_of_mem_getLast? hx
      rcases mem_dispatchBatch hbm with ⟨hbe, hbw, hbd⟩
      exact Nat.le_of_lt (Nat.lt_of_le_of_lt (i8 b hbe hbw x hxmem) hbd)
    · have hcf : ((dispatchBatch cfg s).any (fun b => b.id == id)) = false := by
        simpa using hc
      rw [tsOf_dispatch_not_mem s _ id hcf]
      exact i9 id

theorem inv_onCycleTimerTick (cfg : Config) {s : SchedulerState} (h : Inv cfg s) :
    Inv cfg (onCycleTimerTick cfg s) := by
  unfold onCycleTimerTick
  by_cases h0 : statusCount s CallEntryStatus.waiting = 0
  · rw [if_pos h0]
    exact inv_congr cfg h rfl rfl rfl rfl
  · rw [if_neg h0]
    show Inv cfg (if (dispatchBatch cfg s).isEmpty then
        planNextCycle cfg { s with cycleTimer := none }
      else planNextCycle cfg (dispatchEntries s (dispatchBatch cfg s)))
    by_cases hb : ((dispatchBatch cfg s).isEmpty) = true
    · rw [if_pos hb]
      exact inv_planNextCycle cfg (inv_congr cfg h rfl rfl rfl rfl)
    · rw [if_neg hb]
      exact inv_planNextCycle cfg (inv_dispatchEntries cfg h)

theorem inv_step (cfg : Config) {s s' : SchedulerState} (h : Inv cfg s)
    (hstep : Step cfg s s') : Inv cfg s' := by
  cases hstep with
  | wrapper => exact inv_onWrapperCalled cfg h
  | tick => exact inv_onCycleTimerTick cfg h
  | success id v _ => exact inv_completeSuccess cfg h id v
  | failure id err _ => exact inv_completeFailure cfg h id err
  | registerHandler f => exact inv_onErrorRegister cfg h f
  | rejectAll reason => exact inv_reset cfg h reason
  | advance dt => exact inv_advanceTime cfg h dt

theorem reachable_inv (cfg : Config) {s : SchedulerState} (h : Reachable cfg s) :
    Inv cfg s := by
  induction h with
  | init => exact inv_initialState cfg
  | step _ hstep ih => exact inv_step cfg ih hstep


/-! ### Claim C10: zero options coerced to defaults -/

theorem jsOrDefault_pos (x : Option Nat) (d : Nat) (hd : 0 < d) : 0 < jsOrDefault x d := by
  cases x with
  | none => exact hd
  | some v =>
    by_cases hv : v = 0
    · simpa [jsOrDefault, hv] using hd
    · simpa [jsOrDefault, hv] using Nat.pos_of_ne_zero hv

/-- C10: constructing the scheduler with `maxRetryAttempts = 0` or
`delayOnRetry = 0` yields the defaults 10 and 1000 respectively (zero is
falsy, so `options.x || default` coerces it to the default), and no
configuration at all can produce zero retry attempts or a zero retry
delay. -/
theorem claim_C10 :
    (∀ o : CallAgainOptions, o.maxRetryAttempts = some 0 →
      (mkConfig (some o)).maxRetryAttempts = 10) ∧
    (∀ o : CallAgainOptions, o.delayOnRetry = some 0 →
      (mkConfig (some o)).delayOnRetry = 1000) ∧
    (∀ options : Option CallAgainOptions,
      0 < (mkConfig options).maxRetryAttempts ∧ 0 < (mkConfig options).delayOnRetry) := by
  refine ⟨?_, ?_, ?_⟩
  · intro o h
    simp [mkConfig, h, jsOrDefault]
  · intro o h
    simp [mkConfig, h, jsOrDefault]
  · intro options
    exact ⟨jsOrDefault_pos _ 10 (by decide), jsOrDefault_pos _ 1000 (by decide)⟩

theorem claim_C10_witness :
    (mkConfig (some (⟨none, some 0, some 0, none, none⟩ : CallAgainOptions))).maxRetryAttempts
      = 10 ∧
    (mkConfig (some (⟨none, some 0, some 0, none, none⟩ : CallAgainOptions))).delayOnRetry
      = 1000 :=
  ⟨claim_C10.1 _ rfl, claim_C10.2.1 _ rfl⟩

/-! ### Claim C6: classification chain order and terminal default -/

/-- C6: with classifiers registered in the order `[A, B]`, `B` (most recent)
is consulted first and its `next` evaluates the next-older part of the
chain; if both delegate, the verdict is the built-in default; the default
returns `true` and its result never depends on `next`; registration is a
`cons` onto the chain, and the chain built from any registration sequence
ends with the default handler. -/
theorem claim_C6 :
    (∀ (A B : ErrorHandler) (s : SchedulerState) (err : Nat),
      shouldRetryOnError (onErrorRegister B (onErrorRegister A s)) err =
        B err (fun e => getHandler (A :: s.errorHandlers) e)) ∧
    (∀ (A B : ErrorHandler) (err : Nat),
      (∀ e n, A e n = n e) → (∀ e n, B e n = n e) →
      shouldRetryOnError (onErrorRegister B (onErrorRegister A initialState)) err = true) ∧
    (∀ (err : Nat) (next : Nat → Bool), defaultErrorHandler err next = true) ∧
    (∀ (err : Nat) (n₁ n₂ : Nat → Bool),
      defaultErrorHandler err n₁ = defaultErrorHandler err n₂) ∧
    (∀ (f : ErrorHandler) (s : SchedulerState),
      (onErrorRegister f s).errorHandlers = f :: s.errorHandlers) ∧
    (∀ regs : List ErrorHandler,
      (regs.foldl (fun st f => onErrorRegister f st) initialState).errorHandlers =
        regs.reverse ++ [defaultErrorHandler]) := by
  refine ⟨?_, ?_, ?_, ?_, ?_, ?_⟩
  · intro A B s err
    rfl
  · intro A B err hA hB
    show getHandler (B :: A :: [defaultErrorHandler]) err = true
    rw [getHandler, hB, getHandler, hA]
    rfl
  · intro err next
    rfl
  · intro err n₁ n₂
    rfl
  · intro f s
    rfl
  · intro regs
    have key : ∀ (regs : List ErrorHandler) (st : SchedulerState),
        (regs.foldl (fun st f => onErrorRegister f st) st).errorHandlers =
          regs.reverse ++ st.errorHandlers := by
      intro regs
      induction regs with
      | nil => intro st; simp
      | cons f tl ih =>
        intro st
        rw [List.foldl_cons, ih]
        simp [onErrorRegister]
    rw [key regs initialState]
    rfl

theorem claim_C6_witness :
    shouldRetryOnError
      (onErrorRegister (fun e n => n e) (onErrorRegister (fun e n => n e) initialState)) 7
      = true :=
  claim_C6.2.1 (fun e n => n e) (fun e n => n e) 7 (fun _ _ => rfl) (fun _ _ => rfl)

/-! ### Claim C2: concurrency bound -/

/-- C2: with `maxConcurrentCalls = C`, every reachable state has at most `C`
entries in `processing`; a dispatch batch is bounded by `C` minus the
current `processing` count; and submitting a call never changes the
`processing` count. -/
theorem claim_C2 (cfg : Config) (C : Nat) (hC : cfg.maxConcurrentCalls = some C)
    {s : SchedulerState} (hs : Reachable cfg s) :
    statusCount s CallEntryStatus.processing ≤ C ∧
    (dispatchBatch cfg s).length ≤ C - statusCount s CallEntryStatus.processing ∧
    statusCount (onWrapperCalled cfg s) CallEntryStatus.processing =
      statusCount s CallEntryStatus.processing := by
  have hinv := reachable_inv cfg hs
  refine ⟨hinv.conc_bound C hC, dispatchBatch_length_le_conc hC, ?_⟩
  have hent := onWrapperCalled_entries_of_le cfg s hinv.ids_le
  unfold statusCount
  rw [hent, List.countP_append]
  simp

theorem claim_C2_witness :
    statusCount initialState CallEntryStatus.processing ≤ 2 ∧
    (dispatchBatch (⟨some 2, 10, 1000, none, none⟩ : Config) initialState).length ≤
      2 - statusCount initialState CallEntryStatus.processing ∧
    statusCount (onWrapperCalled (⟨some 2, 10, 1000, none, none⟩ : Config) initialState)
      CallEntryStatus.processing = statusCount initialState CallEntryStatus.processing :=
  claim_C2 (⟨some 2, 10, 1000, none, none⟩ : Config) 2 rfl Reachable.init

/-! ### Claim C3: rolling-window rate bound; one option alone disables -/

/-- C3: with both `maxCallsPerInterval = M` and `intervalLength = L`
configured, no window `[T - L, T]` of any reachable state's history holds
more than `M` dispatch records; with either option missing, the interval
headroom is the unbounded sentinel `none`. -/
theorem claim_C3 (cfg : Config) {s : SchedulerState} (hs : Reachable cfg s) :
    (∀ M len, cfg.maxCallsPerInterval = some M → cfg.intervalLength = some len →
      ∀ T, windowCount s.history T len ≤ M) ∧
    (cfg.maxCallsPerInterval = none ∨ cfg.intervalLength = none →
      calculateCallsLeftBeforeIntervalLimit cfg s = none) := by
  refine ⟨(reachable_inv cfg hs).window_bound, ?_⟩
  intro hnone
  unfold calculateCallsLeftBeforeIntervalLimit
  rcases hnone with h | h
  · rw [h]
  · rw [h]
    cases cfg.maxCallsPerInterval <;> rfl

theorem claim_C3_witness :
    windowCount initialState.history 100 50 ≤ 3 ∧
    calculateCallsLeftBeforeIntervalLimit (⟨none, 10, 1000, some 3, none⟩ : Config)
      initialState = none :=
  ⟨(claim_C3 (⟨none, 10, 1000, some 3, some 50⟩ : Config) Reachable.init).1 3 50 rfl rfl 100,
   (claim_C3 (⟨none, 10, 1000, some 3, none⟩ : Config) Reachable.init).2 (Or.inr rfl)⟩

/-! ### Claim C9: dispatched entries always carry their settlement -/

/-- C9: in every reachable state no entry is still `init` and every entry
carries its settlement callbacks (`waiting` is only assigned in the same
synchronous step that attaches them), so in particular every entry selected
for dispatch has its callbacks attached and the non-null assertions of
`_processEntry` cannot fail. -/
theorem claim_C9 (cfg : Config) {s : SchedulerState} (hs : Reachable cfg s) :
    (∀ e ∈ s.entries, e.hasSettlement = true ∧ e.status ≠ CallEntryStatus.init) ∧
    (∀ b ∈ dispatchBatch cfg s, b.hasSettlement = true ∧
      b.status = CallEntryStatus.waiting) := by
  have hinv := reachable_inv cfg hs
  refine ⟨hinv.has_settlement, fun b hb => ?_⟩
  rcases mem_dispatchBatch hb with ⟨hbe, hbw, _⟩
  exact ⟨(hinv.has_settlement b hbe).1, hbw⟩

theorem claim_C9_witness :
    (∀ e ∈ (onWrapperCalled (⟨none, 10, 1000, none, none⟩ : Config) initialState).entries,
      e.hasSettlement = true ∧ e.status ≠ CallEntryStatus.init) ∧
    (∀ b ∈ dispatchBatch (⟨none, 10, 1000, none, none⟩ : Config)
        (onWrapperCalled (⟨none, 10, 1000, none, none⟩ : Config) initialState),
      b.hasSettlement = true ∧ b.status = CallEntryStatus.waiting) :=
  claim_C9 (⟨none, 10, 1000, none, none⟩ : Config)
    (Reachable.step Reachable.init (Step.wrapper initialState))


/-! ### Claim C8: batch size and FIFO selection -/

/-- C8: at every cycle fire, the dispatched batch has size
`min (min concurrency_headroom interval_headroom) eligible_count` with an
unconfigured headroom replaced by the waiting count, contains only `waiting`
entries with `eligible_at < now`, is sorted by ascending id, and any
eligible entry left out has an id at least as large as every selected
entry (FIFO by id). -/
theorem claim_C8 (cfg : Config) (s : SchedulerState) :
    (dispatchBatch cfg s).length =
      min (min ((calculateCallsLeftBeforeConcurrentLimit cfg s).getD
            (statusCount s CallEntryStatus.waiting))
          ((calculateCallsLeftBeforeIntervalLimit cfg s).getD
            (statusCount s CallEntryStatus.waiting)))
        (eligibleEntries s).length ∧
    (∀ b ∈ dispatchBatch cfg s, b ∈ s.entries ∧ b.status = CallEntryStatus.waiting ∧
      b.delay < s.now) ∧
    (dispatchBatch cfg s).Pairwise (fun a b => a.id ≤ b.id) ∧
    (∀ x ∈ eligibleEntries s, x ∉ dispatchBatch cfg s →
      ∀ b ∈ dispatchBatch cfg s, b.id ≤ x.id) := by
  refine ⟨?_, fun b hb => mem_dispatchBatch hb, ?_, ?_⟩
  · simp only [dispatchBatch]
    rw [List.length_take]
    congr 1
    exact (List.perm_insertionSort leById (eligibleEntries s)).length_eq
  · have hsorted : List.Sorted leById (List.insertionSort leById (eligibleEntries s)) :=
      List.sorted_insertionSort leById (eligibleEntries s)
    have hbatch : (dispatchBatch cfg s).Pairwise leById := by
      simp only [dispatchBatch]
      exact List.Pairwise.sublist (List.take_sublist _ _) hsorted
    exact hbatch.imp (fun hab => hab)
  · intro x hx hnx b hb
    simp only [dispatchBatch] at hnx hb
    have hx' : x ∈ List.insertionSort leById (eligibleEntries s) :=
      (List.perm_insertionSort leById (eligibleEntries s)).symm.subset hx
    have hp : List.Pairwise leById
        ((List.insertionSort leById (eligibleEntries s)).take
            (min ((calculateCallsLeftBeforeConcurrentLimit cfg s).getD
                (statusCount s CallEntryStatus.waiting))
              ((calculateCallsLeftBeforeIntervalLimit cfg s).getD
                (statusCount s CallEntryStatus.waiting))) ++
          (List.insertionSort leById (eligibleEntries s)).drop
            (min ((calculateCallsLeftBeforeConcurrentLimit cfg s).getD
                (statusCount s CallEntryStatus.waiting))
              ((calculateCallsLeftBeforeIntervalLimit cfg s).getD
                (statusCount s CallEntryStatus.waiting)))) := by
      rw [List.take_append_drop]
      exact List.sorted_insertionSort leById (eligibleEntries s)
    have hxd : x ∈ (List.insertionSort leById (eligibleEntries s)).drop
        (min ((calculateCallsLeftBeforeConcurrentLimit cfg s).getD
            (statusCount s CallEntryStatus.waiting))
          ((calculateCallsLeftBeforeIntervalLimit cfg s).getD
            (statusCount s CallEntryStatus.waiting))) := by
      have hx2 : x ∈ (List.insertionSort leById (eligibleEntries s)).take
          (min ((calculateCallsLeftBeforeConcurrentLimit cfg s).getD
              (statusCount s CallEntryStatus.waiting))
            ((calculateCallsLeftBeforeIntervalLimit cfg s).getD
              (statusCount s CallEntryStatus.waiting))) ++
          (List.insertionSort leById (eligibleEntries s)).drop
            (min ((calculateCallsLeftBeforeConcurrentLimit cfg s).getD
                (statusCount s CallEntryStatus.waiting))
              ((calculateCallsLeftBeforeIntervalLimit cfg s).getD
                (statusCount s CallEntryStatus.waiting))) := by
        rw [List.take_append_drop]
        exact hx'
      rcases List.mem_append.mp hx2 with h1 | h2
      · exact absurd h1 hnx
      · exact h2
    exact (List.pairwise_append.mp hp).2.2 b hb x hxd

theorem claim_C8_witness :
    ((dispatchBatch (⟨some 2, 10, 1000, none, none⟩ : Config) initialState).length =
      min (min ((calculateCallsLeftBeforeConcurrentLimit
            (⟨some 2, 10, 1000, none, none⟩ : Config) initialState).getD
            (statusCount initialState CallEntryStatus.waiting))
          ((calculateCallsLeftBeforeIntervalLimit
            (⟨some 2, 10, 1000, none, none⟩ : Config) initialState).getD
            (statusCount initialState CallEntryStatus.waiting)))
        (eligibleEntries initialState).length) ∧
    (∀ b ∈ dispatchBatch (⟨some 2, 10, 1000, none, none⟩ : Config) initialState,
      b ∈ initialState.entries ∧ b.status = CallEntryStatus.waiting ∧
      b.delay < initialState.now) ∧
    (dispatchBatch (⟨some 2, 10, 1000, none, none⟩ : Config) initialState).Pairwise
      (fun a b => a.id ≤ b.id) ∧
    (∀ x ∈ eligibleEntries initialState,
      x ∉ dispatchBatch (⟨some 2, 10, 1000, none, none⟩ : Config) initialState →
      ∀ b ∈ dispatchBatch (⟨some 2, 10, 1000, none, none⟩ : Config) initialState,
        b.id ≤ x.id) :=
  claim_C8 (⟨some 2, 10, 1000, none, none⟩ : Config) initialState

/-! ### Claim C5: the next-cycle delay computation, branch by branch -/

/-- The head of the delay-sorted waiting list has minimal `delay` among the
waiting entries. -/
theorem closestByDelay_le (s : SchedulerState) (c : CallEntry)
    (hc : closestByDelay s = some c) :
    ∀ e ∈ s.entries, e.status = CallEntryStatus.waiting → c.delay ≤ e.delay := by
  intro e he hw
  unfold closestByDelay at hc
  have hmem : e ∈ List.insertionSort leByDelay
      (s.entries.filter (fun x => decide (x.status = CallEntryStatus.waiting))) := by
    refine (List.perm_insertionSort leByDelay _).symm.subset ?_
    exact List.mem_filter.mpr ⟨he, decide_eq_true hw⟩
  have hsorted : List.Sorted leByDelay (List.insertionSort leByDelay
      (s.entries.filter (fun x => decide (x.status = CallEntryStatus.waiting)))) :=
    List.sorted_insertionSort leByDelay _
  cases hss : List.insertionSort leByDelay
      (s.entries.filter (fun x => decide (x.status = CallEntryStatus.waiting))) with
  | nil =>
    rw [hss] at hc
    cases hc
  | cons hd tl =>
    rw [hss] at hc hmem hsorted
    have hhd : hd = c := by
      simpa using hc
    subst hhd
    rcases List.mem_cons.mp hmem with rfl | htl
    · exact Nat.le_refl _
    · exact (List.pairwise_cons.mp hsorted).1 e htl

/-- C5: `_calculateNextCycleDelay` evaluates its guards in order: no
init/waiting work gives no wake-up; init-only gives the minimal fixed delay
1; zero interval headroom gives the full interval length; zero concurrency
headroom gives no wake-up; an already-eligible waiting entry gives zero
delay; otherwise the delay to the earliest `eligible_at` among waiting
entries, clamped at zero. -/
theorem claim_C5 (cfg : Config) (s : SchedulerState) :
    (statusCount s CallEntryStatus.init = 0 → statusCount s CallEntryStatus.waiting = 0 →
      calculateNextCycleDelay cfg s = none) ∧
    (statusCount s CallEntryStatus.init ≠ 0 → statusCount s CallEntryStatus.waiting = 0 →
      calculateNextCycleDelay cfg s = some 1) ∧
    (statusCount s CallEntryStatus.waiting ≠ 0 →
      calculateCallsLeftBeforeIntervalLimit cfg s = some 0 →
      calculateNextCycleDelay cfg s = cfg.intervalLength) ∧
    (statusCount s CallEntryStatus.waiting ≠ 0 →
      calculateCallsLeftBeforeIntervalLimit cfg s ≠ some 0 →
      calculateCallsLeftBeforeConcurrentLimit cfg s = some 0 →
      calculateNextCycleDelay cfg s = none) ∧
    (statusCount s CallEntryStatus.waiting ≠ 0 →
      calculateCallsLeftBeforeIntervalLimit cfg s ≠ some 0 →
      calculateCallsLeftBeforeConcurrentLimit cfg s ≠ some 0 →
      (∃ e ∈ s.entries, e.status = CallEntryStatus.waiting ∧ e.delay ≤ s.now) →
      calculateNextCycleDelay cfg s = some 0) ∧
    (statusCount s CallEntryStatus.waiting ≠ 0 →
      calculateCallsLeftBeforeIntervalLimit cfg s ≠ some 0 →
      calculateCallsLeftBeforeConcurrentLimit cfg s ≠ some 0 →
      (¬ ∃ e ∈ s.entries, e.status = CallEntryStatus.waiting ∧ e.delay ≤ s.now) →
      ∀ c, closestByDelay s = some c →
        calculateNextCycleDelay cfg s = some (c.delay - s.now) ∧
        (∀ e ∈ s.entries, e.status = CallEntryStatus.waiting → c.delay ≤ e.delay)) := by
  refine ⟨?_, ?_, ?_, ?_, ?_, ?_⟩
  · intro h1 h2
    unfold calculateNextCycleDelay
    rw [if_pos ⟨h1, h2⟩]
  · intro h1 h2
    unfold calculateNextCycleDelay
    rw [if_neg (fun hc => h1 hc.1), if_pos h2]
  · intro h1 h2
    unfold calculateNextCycleDelay
    rw [if_neg (fun hc => h1 hc.2), if_neg h1, if_pos h2]
  · intro h1 h2 h3
    unfold calculateNextCycleDelay
    rw [if_neg (fun hc => h1 hc.2), if_neg h1, if_neg h2, if_pos h3]
  · intro h1 h2 h3 hex
    unfold calculateNextCycleDelay
    rw [if_neg (fun hc => h1 hc.2), if_neg h1, if_neg h2, if_neg h3, if_pos]
    rcases hex with ⟨e, he, hw, hd⟩
    exact List.countP_pos_iff.mpr ⟨e, he, decide_eq_true ⟨hw, hd⟩⟩
  · intro h1 h2 h3 hnex c hc
    refine ⟨?_, closestByDelay_le s c hc⟩
    unfold calculateNextCycleDelay
    rw [if_neg (fun hcc => h1 hcc.2), if_neg h1, if_neg h2, if_neg h3, if_neg]
    · rw [hc]
      show (if ((c.delay : Int) - (s.now : Int)) < 0 then some 0
          else some (((c.delay : Int) - (s.now : Int)).toNat)) = some (c.delay - s.now)
      by_cases hd : ((c.delay : Int) - (s.now : Int)) < 0
      · rw [if_pos hd]
        have hlt : c.delay < s.now := by
          have := sub_neg.mp hd
          exact_mod_cast this
        rw [Nat.sub_eq_zero_of_le (Nat.le_of_lt hlt)]
      · rw [if_neg hd]
        rw [Int.toNat_sub]
    · intro hpos
      rcases List.countP_pos_iff.mp hpos with ⟨e, he, hp⟩
      have hp' := of_decide_eq_true hp
      exact hnex ⟨e, he, hp'.1, hp'.2⟩

theorem claim_C5_witness :
    calculateNextCycleDelay (⟨none, 10, 1000, none, none⟩ : Config) initialState = none :=
  (claim_C5 (⟨none, 10, 1000, none, none⟩ : Config) initialState).1 rfl rfl


/-! ### Per-entry retry runs (claims C4 and C7) -/

theorem onEntryFailure_exhaust (cfg : Config) (handlers : List ErrorHandler)
    (now err : Nat) (e : CallEntry) (hcond : cfg.maxRetryAttempts ≤ e.attempts + 1) :
    onEntryFailure cfg handlers now err e =
      ({ e with attempts := e.attempts + 1, status := CallEntryStatus.done },
       if e.aborted then none else some (SettleOutcome.rejected (some err))) := by
  simp only [onEntryFailure]
  rw [if_pos hcond]

theorem onEntryFailure_retry (cfg : Config) (handlers : List ErrorHandler)
    (now err : Nat) (e : CallEntry) (hcond : e.attempts + 1 < cfg.maxRetryAttempts)
    (hret : getHandler handlers err = true) :
    onEntryFailure cfg handlers now err e =
      ({ e with
          attempts := e.attempts + 1,
          status := CallEntryStatus.waiting,
          delay := now + cfg.delayOnRetry }, none) := by
  simp only [onEntryFailure]
  rw [if_neg (Nat.not_le.mpr hcond), if_pos hret]

theorem onEntryFailure_noretry (cfg : Config) (handlers : List ErrorHandler)
    (now err : Nat) (e : CallEntry) (hcond : e.attempts + 1 < cfg.maxRetryAttempts)
    (hret : getHandler handlers err = false) :
    onEntryFailure cfg handlers now err e =
      ({ e with attempts := e.attempts + 1, status := CallEntryStatus.done },
       if e.aborted then none else some (SettleOutcome.rejected (some err))) := by
  simp only [onEntryFailure]
  rw [if_neg (Nat.not_le.mpr hcond), if_neg (by simp [hret])]

/-- One-step unfolding of `runEntry` on a failing invocation. -/
theorem runEntry_cons_failure (cfg : Config) (handlers : List ErrorHandler)
    (e : CallEntry) (t err : Nat) (rest : List (Nat × CallOutcome)) :
    runEntry cfg handlers e ((t, CallOutcome.failure err) :: rest) =
      (if (onEntryFailure cfg handlers t err e).1.status = CallEntryStatus.waiting then
        ((runEntry cfg handlers (onEntryFailure cfg handlers t err e).1 rest).1,
         (onEntryFailure cfg handlers t err e).2.toList ++
           (runEntry cfg handlers (onEntryFailure cfg handlers t err e).1 rest).2.1,
         (runEntry cfg handlers (onEntryFailure cfg handlers t err e).1 rest).2.2 + 1)
      else ((onEntryFailure cfg handlers t err e).1,
        (onEntryFailure cfg handlers t err e).2.toList, 1)) := rfl

/-- A run in which every invocation fails: once the attempt counter reaches
the configured maximum the entry is rejected with the error of the last
attempt, after exactly `maxRetryAttempts − initial attempts` invocations,
provided the chain retried all the earlier failures. -/
theorem runEntry_all_fail (cfg : Config) (handlers : List ErrorHandler) :
    ∀ (steps : List (Nat × Nat)) (e : CallEntry), e.aborted = false →
      e.attempts + steps.length = cfg.maxRetryAttempts → steps ≠ [] →
      (∀ p ∈ steps.dropLast, getHandler handlers p.2 = true) →
      ∀ tl el, steps.getLast? = some (tl, el) →
      (runEntry cfg handlers e
          (steps.map (fun p => (p.1, CallOutcome.failure p.2)))).2.1 =
        [SettleOutcome.rejected (some el)] ∧
      (runEntry cfg handlers e
          (steps.map (fun p => (p.1, CallOutcome.failure p.2)))).2.2 = steps.length ∧
      (runEntry cfg handlers e
          (steps.map (fun p => (p.1, CallOutcome.failure p.2)))).1.status =
        CallEntryStatus.done := by
  intro steps
  induction steps with
  | nil =>
    intro e _ _ hne _ tl el _
    exact absurd rfl hne
  | cons p rest ih =>
    obtain ⟨t, err⟩ := p
    intro e hab hlen _ hretry tl el hlast
    cases rest with
    | nil =>
      have hcond : cfg.maxRetryAttempts ≤ e.attempts + 1 := by
        simp only [List.length_cons, List.length_nil] at hlen
        omega
      have hel : el = err := by
        have hsing := List.getLast?_singleton (t, err)
        rw [hsing] at hlast
        cases hlast
        rfl
      simp only [List.map_cons, List.map_nil]
      rw [runEntry_cons_failure]
      rw [onEntryFailure_exhaust cfg handlers t err e hcond]
      simp [hab, hel]
    | cons q rest' =>
      have hlen' : e.attempts + 1 + (q :: rest').length = cfg.maxRetryAttempts := by
        simp only [List.length_cons] at hlen ⊢
        omega
      have hcond : e.attempts + 1 < cfg.maxRetryAttempts := by
        simp only [List.length_cons] at hlen'
        omega
      have hret : getHandler handlers err = true := by
        refine hretry (t, err) ?_
        rw [List.dropLast_cons₂]
        exact List.mem_cons_self _ _
      have hretry' : ∀ p ∈ (q :: rest').dropLast, getHandler handlers p.2 = true := by
        intro p hp
        refine hretry p ?_
        rw [List.dropLast_cons₂]
        exact List.mem_cons_of_mem _ hp
      have hlast' : (q :: rest').getLast? = some (tl, el) := by
        rw [← List.getLast?_cons_cons]
        exact hlast
      have hab' : ({ e with
          attempts := e.attempts + 1,
          status := CallEntryStatus.waiting,
          delay := t + cfg.delayOnRetry } : CallEntry).aborted = false := hab
      have hih := ih { e with
          attempts := e.attempts + 1,
          status := CallEntryStatus.waiting,
          delay := t + cfg.delayOnRetry }
        hab' (by simpa using hlen') (by simp) hretry' tl el hlast'
      simp only [List.map_cons]
      rw [runEntry_cons_failure]
      rw [onEntryFailure_retry cfg handlers t err e hcond hret]
      rw [if_pos rfl]
      refine ⟨?_, ?_, ?_⟩
      · simpa using hih.1
      · have h2 := hih.2.1
        simp only [List.map_cons, List.length_cons] at h2
        simp only [List.length_cons, h2]
      · simpa using hih.2.2

/-- A run of `K` retryable failures followed by a success: the settlement
fires exactly once, resolving with the success value, after exactly `K + 1`
invocations. -/
theorem runEntry_fail_then_succeed (cfg : Config) (handlers : List ErrorHandler) :
    ∀ (steps : List (Nat × Nat)) (tv v : Nat) (e : CallEntry), e.aborted = false →
      e.attempts + steps.length < cfg.maxRetryAttempts →
      (∀ p ∈ steps, getHandler handlers p.2 = true) →
      (runEntry cfg handlers e
          (steps.map (fun p => (p.1, CallOutcome.failure p.2)) ++
            [(tv, CallOutcome.success v)])).2.1 = [SettleOutcome.resolved v] ∧
      (runEntry cfg handlers e
          (steps.map (fun p => (p.1, CallOutcome.failure p.2)) ++
            [(tv, CallOutcome.success v)])).2.2 = steps.length + 1 ∧
      (runEntry cfg handlers e
          (steps.map (fun p => (p.1, CallOutcome.failure p.2)) ++
            [(tv, CallOutcome.success v)])).1.status = CallEntryStatus.done := by
  intro steps
  induction steps with
  | nil =>
    intro tv v e hab _ _
    simp [runEntry, onEntrySuccess, hab]
  | cons p rest ih =>
    obtain ⟨t, err⟩ := p
    intro tv v e hab hlen hretry
    have hcond : e.attempts + 1 < cfg.maxRetryAttempts := by
      simp only [List.length_cons] at hlen
      omega
    have hret : getHandler handlers err = true :=
      hretry (t, err) (List.mem_cons_self _ _)
    have hretry' : ∀ p ∈ rest, getHandler handlers p.2 = true :=
      fun p hp => hretry p (List.mem_cons_of_mem _ hp)
    have hlen' : ({ e with
        attempts := e.attempts + 1,
        status := CallEntryStatus.waiting,
        delay := t + cfg.delayOnRetry } : CallEntry).attempts + rest.length <
        cfg.maxRetryAttempts := by
      show e.attempts + 1 + rest.length < cfg.maxRetryAttempts
      simp only [List.length_cons] at hlen
      omega
    have hih := ih tv v { e with
        attempts := e.attempts + 1,
        status := CallEntryStatus.waiting,
        delay := t + cfg.delayOnRetry }
      hab hlen' hretry'
    simp only [List.map_cons, List.cons_append]
    rw [runEntry_cons_failure]
    rw [onEntryFailure_retry cfg handlers t err e hcond hret]
    rw [if_pos rfl]
    refine ⟨?_, ?_, ?_⟩
    · simpa using hih.1
    · have h2 := hih.2.1
      simp only [List.map_cons, List.length_cons, List.cons_append] at h2
      simp only [List.length_cons, h2]
    · simpa using hih.2.2

/-- C4: a call whose target fails on `maxRetryAttempts` consecutive attempts
is invoked exactly `maxRetryAttempts` times and its deferred result is
rejected with the error of the last attempt; attempt exhaustion is decided
before the classification chain is consulted, so the final rejection holds
for every chain. -/
theorem claim_C4 (cfg : Config) (handlers : List ErrorHandler)
    (steps : List (Nat × Nat)) (tl el : Nat) (e : CallEntry)
    (hab : e.aborted = false) (hatt : e.attempts = 0)
    (hmax : 0 < cfg.maxRetryAttempts)
    (hlen : steps.length = cfg.maxRetryAttempts)
    (hretry : ∀ p ∈ steps.dropLast, getHandler handlers p.2 = true)
    (hlast : steps.getLast? = some (tl, el)) :
    (runEntry cfg handlers e
        (steps.map (fun p => (p.1, CallOutcome.failure p.2)))).2.1 =
      [SettleOutcome.rejected (some el)] ∧
    (runEntry cfg handlers e
        (steps.map (fun p => (p.1, CallOutcome.failure p.2)))).2.2 =
      cfg.maxRetryAttempts ∧
    (runEntry cfg handlers e
        (steps.map (fun p => (p.1, CallOutcome.failure p.2)))).1.status =
      CallEntryStatus.done ∧
    (∀ (handlers' : List ErrorHandler) (now err : Nat) (x : CallEntry),
      cfg.maxRetryAttempts ≤ x.attempts + 1 →
      onEntryFailure cfg handlers' now err x =
        ({ x with attempts := x.attempts + 1, status := CallEntryStatus.done },
         if x.aborted then none else some (SettleOutcome.rejected (some err)))) := by
  have hne : steps ≠ [] := by
    intro hc
    rw [hc] at hlen
    simp at hlen
    omega
  have h := runEntry_all_fail cfg handlers steps e hab (by omega) hne hretry tl el hlast
  exact ⟨h.1, by rw [h.2.1, hlen], h.2.2,
    fun handlers' now err x hc => onEntryFailure_exhaust cfg handlers' now err x hc⟩

theorem claim_C4_witness :
    (runEntry (⟨none, 2, 1000, none, none⟩ : Config) [defaultErrorHandler]
        (⟨1, true, CallEntryStatus.waiting, 0, 0, false⟩ : CallEntry)
        ([(5, 7), (9, 8)].map (fun p => (p.1, CallOutcome.failure p.2)))).2.1 =
      [SettleOutcome.rejected (some 8)] ∧
    (runEntry (⟨none, 2, 1000, none, none⟩ : Config) [defaultErrorHandler]
        (⟨1, true, CallEntryStatus.waiting, 0, 0, false⟩ : CallEntry)
        ([(5, 7), (9, 8)].map (fun p => (p.1, CallOutcome.failure p.2)))).2.2 =
      (⟨none, 2, 1000, none, none⟩ : Config).maxRetryAttempts ∧
    (runEntry (⟨none, 2, 1000, none, none⟩ : Config) [defaultErrorHandler]
        (⟨1, true, CallEntryStatus.waiting, 0, 0, false⟩ : CallEntry)
        ([(5, 7), (9, 8)].map (fun p => (p.1, CallOutcome.failure p.2)))).1.status =
      CallEntryStatus.done ∧
    (∀ (handlers' : List ErrorHandler) (now err : Nat) (x : CallEntry),
      (⟨none, 2, 1000, none, none⟩ : Config).maxRetryAttempts ≤ x.attempts + 1 →
      onEntryFailure (⟨none, 2, 1000, none, none⟩ : Config) handlers' now err x =
        ({ x with attempts := x.attempts + 1, status := CallEntryStatus.done },
         if x.aborted then none else some (SettleOutcome.rejected (some err)))) :=
  claim_C4 (⟨none, 2, 1000, none, none⟩ : Config) [defaultErrorHandler]
    [(5, 7), (9, 8)] 9 8 (⟨1, true, CallEntryStatus.waiting, 0, 0, false⟩ : CallEntry)
    rfl rfl (by decide) rfl (fun _ _ => rfl) rfl

/-- C7: each retryable failure moves the entry from `processing` back to
`waiting` with `eligible_at = now + delayOnRetry` and `attempts + 1`, never
touching the settlement; a run of `K < maxRetryAttempts` retryable failures
followed by a success settles exactly once, resolving with the success
value, after exactly `K + 1` invocations; and in every reachable state the
dispatch timestamps of any entry are separated by at least the retry
delay. -/
theorem claim_C7 (cfg : Config) :
    (∀ (handlers : List ErrorHandler) (now err : Nat) (x : CallEntry),
      x.status = CallEntryStatus.processing → x.attempts + 1 < cfg.maxRetryAttempts →
      getHandler handlers err = true →
      onEntryFailure cfg handlers now err x =
        ({ x with
            attempts := x.attempts + 1,
            status := CallEntryStatus.waiting,
            delay := now + cfg.delayOnRetry }, none)) ∧
    (∀ (handlers : List ErrorHandler) (steps : List (Nat × Nat)) (tv v : Nat)
      (e : CallEntry), e.aborted = false → e.attempts = 0 →
      steps.length < cfg.maxRetryAttempts →
      (∀ p ∈ steps, getHandler handlers p.2 = true) →
      (runEntry cfg handlers e
          (steps.map (fun p => (p.1, CallOutcome.failure p.2)) ++
            [(tv, CallOutcome.success v)])).2.1 = [SettleOutcome.resolved v] ∧
      (runEntry cfg handlers e
          (steps.map (fun p => (p.1, CallOutcome.failure p.2)) ++
            [(tv, CallOutcome.success v)])).2.2 = steps.length + 1 ∧
      (runEntry cfg handlers e
          (steps.map (fun p => (p.1, CallOutcome.failure p.2)) ++
            [(tv, CallOutcome.success v)])).1.status = CallEntryStatus.done) ∧
    (∀ {s : SchedulerState}, Reachable cfg s → ∀ id,
      List.Chain' (fun a b => a + cfg.delayOnRetry ≤ b) (tsOf s.history id)) := by
  refine ⟨?_, ?_, ?_⟩
  · intro handlers now err x _ hcond hret
    exact onEntryFailure_retry cfg handlers now err x hcond hret
  · intro handlers steps tv v e hab hatt hlen hretry
    exact runEntry_fail_then_succeed cfg handlers steps tv v e hab
      (by rw [hatt]; simpa using hlen) hretry
  · intro s hs id
    exact (reachable_inv cfg hs).gaps id

theorem claim_C7_witness :
    (onEntryFailure (⟨none, 3, 100, none, none⟩ : Config) [defaultErrorHandler] 40 9
        (⟨1, true, CallEntryStatus.processing, 0, 0, false⟩ : CallEntry) =
      ({ (⟨1, true, CallEntryStatus.processing, 0, 0, false⟩ : CallEntry) with
          attempts := 1,
          status := CallEntryStatus.waiting,
          delay := 40 + 100 }, none)) ∧
    (runEntry (⟨none, 3, 100, none, none⟩ : Config) [defaultErrorHandler]
        (⟨1, true, CallEntryStatus.waiting, 0, 0, false⟩ : CallEntry)
        ([(5, 7)].map (fun p => (p.1, CallOutcome.failure p.2)) ++
          [(200, CallOutcome.success 42)])).2.1 = [SettleOutcome.resolved 42] ∧
    List.Chain' (fun a b => a + (⟨none, 3, 100, none, none⟩ : Config).delayOnRetry ≤ b)
      (tsOf initialState.history 1) :=
  ⟨(claim_C7 (⟨none, 3, 100, none, none⟩ : Config)).1 [defaultErrorHandler] 40 9
      (⟨1, true, CallEntryStatus.processing, 0, 0, false⟩ : CallEntry) rfl (by decide) rfl,
   ((claim_C7 (⟨none, 3, 100, none, none⟩ : Config)).2.1 [defaultErrorHandler] [(5, 7)]
      200 42 (⟨1, true, CallEntryStatus.waiting, 0, 0, false⟩ : CallEntry) rfl rfl
      (by decide) (fun _ _ => rfl)).1,
   (claim_C7 (⟨none, 3, 100, none, none⟩ : Config)).2.2 Reachable.init 1⟩


/-! ### Claim C1: the reset operation (modelled from the spec) -/

theorem eq_of_mem_of_id_eq {l : List CallEntry}
    (hnd : l.Pairwise (fun a b => a.id ≠ b.id)) {a b : CallEntry}
    (ha : a ∈ l) (hb : b ∈ l) (hid : a.id = b.id) : a = b := by
  induction l with
  | nil => cases ha
  | cons x tl ih =>
    rcases List.pairwise_cons.mp hnd with ⟨hhead, htail⟩
    rcases List.mem_cons.mp ha with rfl | hatl
    · rcases List.mem_cons.mp hb with rfl | hbtl
      · rfl
      · exact absurd hid (hhead b hbtl)
    · rcases List.mem_cons.mp hb with rfl | hbtl
      · exact absurd hid.symm (hhead a hatl)
      · exact ih htail hatl hbtl

theorem filterMap_eq_singleton {α β : Type} (l : List α)
    (hnd : l.Pairwise (fun a b => a ≠ b)) (f : α → Option β) (b : α) (x : β)
    (hb : b ∈ l) (hfb : f b = some x) (hother : ∀ a ∈ l, a ≠ b → f a = none) :
    l.filterMap f = [x] := by
  induction l with
  | nil => cases hb
  | cons a tl ih =>
    rcases List.pairwise_cons.mp hnd with ⟨hhead, htail⟩
    rcases List.mem_cons.mp hb with rfl | hbtl
    · rw [List.filterMap_cons, hfb]
      have hnil : tl.filterMap f = [] := by
        rw [List.filterMap_eq_nil_iff]
        intro y hy
        exact hother y (List.mem_cons_of_mem _ hy) (fun hc => (hhead y hy) hc.symm)
      rw [hnil]
    · have hfa : f a = none := hother a (List.mem_cons_self _ _) (hhead b hbtl)
      rw [List.filterMap_cons, hfa]
      exact ih htail hbtl (fun y hy hne => hother y (List.mem_cons_of_mem _ hy) hne)

theorem onEntrySuccess_snd_of_aborted (e : CallEntry) (v : Nat)
    (hab : e.aborted = true) : (onEntrySuccess e v).2 = none := by
  simp [onEntrySuccess, hab]

theorem onEntryFailure_snd_of_aborted (cfg : Config) (handlers : List ErrorHandler)
    (now err : Nat) (e : CallEntry) (hab : e.aborted = true) :
    (onEntryFailure cfg handlers now err e).2 = none := by
  simp only [onEntryFailure]
  split_ifs <;> simp [hab]

/-- If every entry carrying the completed id is aborted, a successful
completion leaves the settlement log untouched. -/
theorem completeSuccess_settled_of_aborted (cfg : Config) (s : SchedulerState)
    (id v : Nat) (hall : ∀ e ∈ s.entries, e.id = id → e.aborted = true) :
    (completeSuccess cfg s id v).settled = s.settled := by
  rw [completeSuccess_settled]
  have hnil : s.entries.filterMap (fun e =>
      if e.id == id then (onEntrySuccess e v).2.map (fun ev => (e.id, ev)) else none) = [] := by
    rw [List.filterMap_eq_nil_iff]
    intro e he
    by_cases hc : (e.id == id) = true
    · rw [if_pos hc, onEntrySuccess_snd_of_aborted e v (hall e he (by simpa using hc))]
      rfl
    · rw [if_neg hc]
  rw [hnil, List.append_nil]

/-- If every entry carrying the completed id is aborted, a failing
completion leaves the settlement log untouched. -/
theorem completeFailure_settled_of_aborted (cfg : Config) (s : SchedulerState)
    (id err : Nat) (hall : ∀ e ∈ s.entries, e.id = id → e.aborted = true) :
    (completeFailure cfg s id err).settled = s.settled := by
  rw [completeFailure_settled]
  have hnil : s.entries.filterMap (fun e =>
      if e.id == id then
        (onEntryFailure cfg s.errorHandlers s.now err e).2.map (fun ev => (e.id, ev))
      else none) = [] := by
    rw [List.filterMap_eq_nil_iff]
    intro e he
    by_cases hc : (e.id == id) = true
    · rw [if_pos hc, onEntryFailure_snd_of_aborted cfg s.errorHandlers s.now err e
        (hall e he (by simpa using hc))]
      rfl
    · rw [if_neg hc]
  rw [hnil, List.append_nil]

theorem mem_reset_entries {reason : Option Nat} {s : SchedulerState} {e : CallEntry}
    (he : e ∈ (reset reason s).entries) :
    ∃ y ∈ s.entries,
      (y.status = CallEntryStatus.processing ∨ y.status = CallEntryStatus.done) ∧
      e = (if y.status = CallEntryStatus.processing then { y with aborted := true } else y) := by
  unfold reset at he
  dsimp only at he
  rcases List.mem_map.mp he with ⟨y, hy, hye⟩
  rcases List.mem_filter.mp hy with ⟨hys, hyp⟩
  exact ⟨y, hys, of_decide_eq_true hyp, hye.symm⟩


theorem reset_lastId (reason : Option Nat) (s : SchedulerState) :
    (reset reason s).lastId = s.lastId := rfl

theorem reset_now (reason : Option Nat) (s : SchedulerState) :
    (reset reason s).now = s.now := rfl

theorem reset_status (reason : Option Nat) (s : SchedulerState) :
    ∀ e ∈ (reset reason s).entries,
      e.status = CallEntryStatus.processing ∨ e.status = CallEntryStatus.done := by
  intro e he
  rcases mem_reset_entries he with ⟨y, _, hst, rfl⟩
  by_cases hyp : y.status = CallEntryStatus.processing
  · rw [if_pos hyp]
    exact Or.inl hyp
  · rw [if_neg hyp]
    exact hst

/-- Unfolding the cycle fire when waiting entries exist and the batch is
nonempty. -/
theorem onCycleTimerTick_eq_of_batch_nonempty (cfg : Config) (s : SchedulerState)
    (hw : ¬statusCount s CallEntryStatus.waiting = 0)
    (hb : (dispatchBatch cfg s).isEmpty = false) :
    onCycleTimerTick cfg s =
      planNextCycle cfg (dispatchEntries s (dispatchBatch cfg s)) := by
  unfold onCycleTimerTick
  rw [if_neg hw]
  show (if (dispatchBatch cfg s).isEmpty = true then
      planNextCycle cfg { s with cycleTimer := none }
    else planNextCycle cfg (dispatchEntries s (dispatchBatch cfg s))) = _
  rw [hb]
  rfl

/-- After a reset followed by a fresh call, with no concurrency or rate
limit configured, the next cycle fire dispatches exactly the fresh entry. -/
theorem dispatchBatch_after_reset (cfg : Config) (reason : Option Nat)
    {s : SchedulerState} (hs : Reachable cfg s)
    (hc1 : cfg.maxConcurrentCalls = none) (hc2 : cfg.maxCallsPerInterval = none) :
    dispatchBatch cfg (advanceTime 1 (onWrapperCalled cfg (reset reason s))) =
      [({ id := (reset reason s).lastId + 1, hasSettlement := true,
          status := CallEntryStatus.waiting, attempts := 0, delay := 0,
          aborted := false } : CallEntry)] := by
  have hinv' : Inv cfg (reset reason s) := inv_reset cfg (reachable_inv cfg hs) reason
  have hent := onWrapperCalled_entries_of_le cfg (reset reason s) hinv'.ids_le
  have hnotw : ∀ e ∈ (reset reason s).entries, ¬e.status = CallEntryStatus.waiting := by
    intro e he hw
    rcases reset_status reason s e he with hp | hd
    · rw [hw] at hp
      exact CallEntryStatus.noConfusion hp
    · rw [hw] at hd
      exact CallEntryStatus.noConfusion hd
  have hents : (advanceTime 1 (onWrapperCalled cfg (reset reason s))).entries =
      (reset reason s).entries ++
        [({ id := (reset reason s).lastId + 1, hasSettlement := true,
            status := CallEntryStatus.waiting, attempts := 0, delay := 0,
            aborted := false } : CallEntry)] := hent
  have hwc : statusCount (advanceTime 1 (onWrapperCalled cfg (reset reason s)))
      CallEntryStatus.waiting = 1 := by
    unfold statusCount
    rw [hents, List.countP_append]
    have h0 : (reset reason s).entries.countP
        (fun e => decide (e.status = CallEntryStatus.waiting)) = 0 := by
      rw [List.countP_eq_zero]
      intro e he
      simpa using hnotw e he
    rw [h0]
    rfl
  have helig : eligibleEntries (advanceTime 1 (onWrapperCalled cfg (reset reason s))) =
      [({ id := (reset reason s).lastId + 1, hasSettlement := true,
          status := CallEntryStatus.waiting, attempts := 0, delay := 0,
          aborted := false } : CallEntry)] := by
    unfold eligibleEntries
    rw [hents, List.filter_append]
    have h0 : (reset reason s).entries.filter (fun e =>
        decide (e.status = CallEntryStatus.waiting ∧
          e.delay < (advanceTime 1 (onWrapperCalled cfg (reset reason s))).now)) = [] := by
      rw [List.filter_eq_nil_iff]
      intro e he
      simp only [decide_eq_true_eq, not_and]
      intro hw
      exact absurd hw (hnotw e he)
    rw [h0]
    have hnow : (advanceTime 1 (onWrapperCalled cfg (reset reason s))).now =
        s.now + 1 := by
      show (onWrapperCalled cfg (reset reason s)).now + 1 = s.now + 1
      rw [onWrapperCalled_now, reset_now]
    simp [hnow]
  have hcc : calculateCallsLeftBeforeConcurrentLimit cfg
      (advanceTime 1 (onWrapperCalled cfg (reset reason s))) = none := by
    unfold calculateCallsLeftBeforeConcurrentLimit
    rw [hc1]
  have hci : calculateCallsLeftBeforeIntervalLimit cfg
      (advanceTime 1 (onWrapperCalled cfg (reset reason s))) = none := by
    unfold calculateCallsLeftBeforeIntervalLimit
    rw [hc2]
  simp only [dispatchBatch]
  rw [helig, hwc, hcc, hci]
  rfl

/-- C1 (reset, modelled from the spec): rejecting all pending work rejects
every `init`/`waiting` entry immediately with the supplied reason, clears
the armed wake-up, suppresses the settlement of every in-flight entry once
its target eventually completes, and a fresh call submitted afterwards is
accepted (waiting, settlement attached, not aborted), dispatched by the
next cycle and settled normally on completion. -/
theorem claim_C1 (cfg : Config) (reason : Option Nat) {s : SchedulerState}
    (hs : Reachable cfg s) :
    (∀ e ∈ s.entries,
      e.status = CallEntryStatus.init ∨ e.status = CallEntryStatus.waiting →
      (e.id, SettleOutcome.rejected reason) ∈ (reset reason s).settled) ∧
    ((reset reason s).cycleTimer = none) ∧
    (∀ e ∈ s.entries, e.status = CallEntryStatus.processing → ∀ v err,
      (completeSuccess cfg (reset reason s) e.id v).settled = (reset reason s).settled ∧
      (completeFailure cfg (reset reason s) e.id err).settled = (reset reason s).settled) ∧
    (cfg.maxConcurrentCalls = none → cfg.maxCallsPerInterval = none → ∀ v,
      (∃ b ∈ (onWrapperCalled cfg (reset reason s)).entries,
        b.id = s.lastId + 1 ∧ b.status = CallEntryStatus.waiting ∧
        b.hasSettlement = true ∧ b.aborted = false ∧ b.attempts = 0 ∧ b.delay = 0) ∧
      (∃ b ∈ (onCycleTimerTick cfg
          (advanceTime 1 (onWrapperCalled cfg (reset reason s)))).entries,
        b.id = s.lastId + 1 ∧ b.status = CallEntryStatus.processing ∧
        b.aborted = false) ∧
      (completeSuccess cfg
          (onCycleTimerTick cfg (advanceTime 1 (onWrapperCalled cfg (reset reason s))))
          (s.lastId + 1) v).settled =
        (onCycleTimerTick cfg
          (advanceTime 1 (onWrapperCalled cfg (reset reason s)))).settled ++
          [(s.lastId + 1, SettleOutcome.resolved v)]) := by
  have hinv := reachable_inv cfg hs
  have hne : s.entries.Pairwise (fun a b => a.id ≠ b.id) :=
    hinv.ids_sorted.imp (fun hab => Nat.ne_of_lt hab)
  refine ⟨?_, rfl, ?_, ?_⟩
  · intro e he hst
    unfold reset
    dsimp only
    refine List.mem_append.mpr (Or.inr ?_)
    refine List.mem_map.mpr ⟨e, ?_, rfl⟩
    exact List.mem_filter.mpr ⟨he, decide_eq_true hst⟩
  · intro e he hp v err
    have hall : ∀ x ∈ (reset reason s).entries, x.id = e.id → x.aborted = true := by
      intro x hx hxid
      rcases mem_reset_entries hx with ⟨y, hy, _, rfl⟩
      have hyid : y.id = e.id := by
        by_cases hyp : y.status = CallEntryStatus.processing
        · rw [if_pos hyp] at hxid
          exact hxid
        · rw [if_neg hyp] at hxid
          exact hxid
      have hye : y = e := eq_of_mem_of_id_eq hne hy he hyid
      rw [hye, if_pos hp]
    exact ⟨completeSuccess_settled_of_aborted cfg (reset reason s) e.id v hall,
      completeFailure_settled_of_aborted cfg (reset reason s) e.id err hall⟩
  · intro hc1 hc2 v
    have hinv' : Inv cfg (reset reason s) := inv_reset cfg hinv reason
    have hent := onWrapperCalled_entries_of_le cfg (reset reason s) hinv'.ids_le
    have hbatch := dispatchBatch_after_reset cfg reason hs hc1 hc2
    rw [reset_lastId] at hent hbatch
    have hwc1 : statusCount (advanceTime 1 (onWrapperCalled cfg (reset reason s)))
        CallEntryStatus.waiting = 1 := by
      show (advanceTime 1 (onWrapperCalled cfg (reset reason s))).entries.countP
        (fun e => decide (e.status = CallEntryStatus.waiting)) = 1
      have hents : (advanceTime 1 (onWrapperCalled cfg (reset reason s))).entries =
          (reset reason s).entries ++
            [({ id := (reset reason s).lastId + 1, hasSettlement := true,
                status := CallEntryStatus.waiting, attempts := 0, delay := 0,
                aborted := false } : CallEntry)] := hent
      rw [hents, List.countP_append]
      have h0 : (reset reason s).entries.countP
          (fun e => decide (e.status = CallEntryStatus.waiting)) = 0 := by
        rw [List.countP_eq_zero]
        intro e he
        rcases reset_status reason s e he with hp | hd
        · simp [hp]
        · simp [hd]
      rw [h0]
      rfl
    have hu : onCycleTimerTick cfg (advanceTime 1 (onWrapperCalled cfg (reset reason s))) =
        planNextCycle cfg (dispatchEntries
          (advanceTime 1 (onWrapperCalled cfg (reset reason s)))
          (dispatchBatch cfg (advanceTime 1 (onWrapperCalled cfg (reset reason s))))) := by
      refine onCycleTimerTick_eq_of_batch_nonempty cfg _ ?_ ?_
      · rw [hwc1]
        exact one_ne_zero
      · rw [hbatch]
        rfl
    have hreach_u : Reachable cfg (onCycleTimerTick cfg
        (advanceTime 1 (onWrapperCalled cfg (reset reason s)))) := by
      refine Reachable.step (Reachable.step (Reachable.step (Reachable.step hs
        (Step.rejectAll s reason)) (Step.wrapper (reset reason s)))
        (Step.advance (onWrapperCalled cfg (reset reason s)) 1))
        (Step.tick (advanceTime 1 (onWrapperCalled cfg (reset reason s))))
    have hinvu := reachable_inv cfg hreach_u
    have hndu : (onCycleTimerTick cfg
        (advanceTime 1 (onWrapperCalled cfg (reset reason s)))).entries.Pairwise
        (fun a b => a ≠ b) := by
      refine hinvu.ids_sorted.imp ?_
      intro a b hab hc
      rw [hc] at hab
      exact Nat.lt_irrefl _ hab
    have huent : (onCycleTimerTick cfg
        (advanceTime 1 (onWrapperCalled cfg (reset reason s)))).entries =
        (advanceTime 1 (onWrapperCalled cfg (reset reason s))).entries.map
          (fun e => if (dispatchBatch cfg
              (advanceTime 1 (onWrapperCalled cfg (reset reason s)))).any
              (fun b => b.id == e.id) then
            { e with status := CallEntryStatus.processing } else e) := by
      rw [hu, planNextCycle_entries]
      rfl
    have hmem_new : (⟨s.lastId + 1, true, CallEntryStatus.waiting,
        0, 0, false⟩ : CallEntry) ∈
        (advanceTime 1 (onWrapperCalled cfg (reset reason s))).entries := by
      show _ ∈ (onWrapperCalled cfg (reset reason s)).entries
      rw [hent]
      exact List.mem_append.mpr (Or.inr (List.mem_singleton.mpr rfl))
    have hmem_proc : (⟨s.lastId + 1, true, CallEntryStatus.processing,
        0, 0, false⟩ : CallEntry) ∈
        (onCycleTimerTick cfg
          (advanceTime 1 (onWrapperCalled cfg (reset reason s)))).entries := by
      rw [huent]
      refine List.mem_map.mpr ⟨_, hmem_new, ?_⟩
      rw [hbatch]
      simp
    refine ⟨?_, ?_, ?_⟩
    · refine ⟨(⟨s.lastId + 1, true, CallEntryStatus.waiting, 0, 0, false⟩ : CallEntry),
        ?_, rfl, rfl, rfl, rfl, rfl, rfl⟩
      rw [hent]
      exact List.mem_append.mpr (Or.inr (List.mem_singleton.mpr rfl))
    · exact ⟨_, hmem_proc, rfl, rfl, rfl⟩
    · rw [completeSuccess_settled]
      congr 1
      refine filterMap_eq_singleton _ hndu _
        (⟨s.lastId + 1, true, CallEntryStatus.processing,
          0, 0, false⟩ : CallEntry) _ hmem_proc ?_ ?_
      · simp [onEntrySuccess]
      · intro a ha hne'
        by_cases hc : (a.id == s.lastId + 1) = true
        · exfalso
          refine hne' (eq_of_mem_of_id_eq (hinvu.ids_sorted.imp
            (fun hab => Nat.ne_of_lt hab)) ha hmem_proc ?_)
          simpa using hc
        · rw [if_neg hc]


theorem claim_C1_witness :
    ((reset (some 5) initialState).cycleTimer = none) ∧
    (∃ b ∈ (onCycleTimerTick (⟨none, 10, 1000, none, none⟩ : Config)
        (advanceTime 1 (onWrapperCalled (⟨none, 10, 1000, none, none⟩ : Config)
          (reset (some 5) initialState)))).entries,
      b.id = initialState.lastId + 1 ∧ b.status = CallEntryStatus.processing ∧
      b.aborted = false) ∧
    (completeSuccess (⟨none, 10, 1000, none, none⟩ : Config)
        (onCycleTimerTick (⟨none, 10, 1000, none, none⟩ : Config)
          (advanceTime 1 (onWrapperCalled (⟨none, 10, 1000, none, none⟩ : Config)
            (reset (some 5) initialState))))
        (initialState.lastId + 1) 42).settled =
      (onCycleTimerTick (⟨none, 10, 1000, none, none⟩ : Config)
        (advanceTime 1 (onWrapperCalled (⟨none, 10, 1000, none, none⟩ : Config)
          (reset (some 5) initialState)))).settled ++
        [(initialState.lastId + 1, SettleOutcome.resolved 42)] := by
  have h := claim_C1 (⟨none, 10, 1000, none, none⟩ : Config) (some 5) Reachable.init
  exact ⟨h.2.1, (h.2.2.2 rfl rfl 42).2.1, (h.2.2.2 rfl rfl 42).2.2⟩

end Callagain
